import Mathlib

/-!
Verification of the core of a transistor-level digital-logic simulator.

The development shallowly embeds the foundation crate of the simulator:
the value algebra (DriveValue, LogicValue, DriveValueAccumulator), the
pin/wire connection fabric, the transistor primitive with its one-tick
error hysteresis, and the two-phase tick/settle driver.  Mutable Rust
state (pins behind Rc<RefCell<..>>, wires holding weak references) is
represented by an explicit netlist state: pins and wires are stored in
lists and referenced by index, and every operation is a pure function on
that state.  Rust panics (double set_drive, accumulator underflow,
dangling references) are modelled by Option, with none meaning a panic.
-/

set_option maxHeartbeats 1000000

namespace Foundation

/-- States a wire can resolve to, mirroring enum LogicValue. -/
inductive LogicValue where
  | Driven (value : Bool)
  | HighImpedance
  | Error
deriving DecidableEq, Repr

/-- States a single pin can drive onto a wire, mirroring enum DriveValue. -/
inductive DriveValue where
  | Strong (value : Bool)
  | Weak (value : Bool)
  | HighImpedance
  | Error
deriving DecidableEq, Repr

/-- Conversion impl From<DriveValue> for LogicValue: Strong and Weak both
map to Driven. -/
def DriveValue.toLogicValue : DriveValue → LogicValue
  | .Strong value => .Driven value
  | .Weak value => .Driven value
  | .HighImpedance => .HighImpedance
  | .Error => .Error

/-- Conversion impl From<LogicValue> for DriveValue: all LogicValues are
strongly driven. -/
def LogicValue.toDriveValue : LogicValue → DriveValue
  | .Driven value => .Strong value
  | .HighImpedance => .HighImpedance
  | .Error => .Error

/-- The five counters of struct DriveValueAccumulator. -/
structure DriveValueAccumulator where
  strong_true : Nat
  strong_false : Nat
  weak_true : Nat
  weak_false : Nat
  error : Nat
deriving DecidableEq, Repr

namespace DriveValueAccumulator

/-- DriveValueAccumulator::new. -/
def new : DriveValueAccumulator := ⟨0, 0, 0, 0, 0⟩

/-- Rust usize::strict_sub, which panics (none) on underflow. -/
def strictSub (a b : Nat) : Option Nat := if b ≤ a then some (a - b) else none

/-- The first match block of DriveValueAccumulator::update: decrement the
counter for a drive value, HighImpedance decrementing nothing. -/
def subDrive (acc : DriveValueAccumulator) : DriveValue → Option DriveValueAccumulator
  | .Strong true => (strictSub acc.strong_true 1).map fun n => { acc with strong_true := n }
  | .Strong false => (strictSub acc.strong_false 1).map fun n => { acc with strong_false := n }
  | .Weak true => (strictSub acc.weak_true 1).map fun n => { acc with weak_true := n }
  | .Weak false => (strictSub acc.weak_false 1).map fun n => { acc with weak_false := n }
  | .Error => (strictSub acc.error 1).map fun n => { acc with error := n }
  | .HighImpedance => some acc

/-- The second match block of DriveValueAccumulator::update: increment the
counter for a drive value, HighImpedance incrementing nothing. -/
def addDrive (acc : DriveValueAccumulator) : DriveValue → DriveValueAccumulator
  | .Strong true => { acc with strong_true := acc.strong_true + 1 }
  | .Strong false => { acc with strong_false := acc.strong_false + 1 }
  | .Weak true => { acc with weak_true := acc.weak_true + 1 }
  | .Weak false => { acc with weak_false := acc.weak_false + 1 }
  | .Error => { acc with error := acc.error + 1 }
  | .HighImpedance => acc

/-- DriveValueAccumulator::get_value: resolve the counters to the
LogicValue of the wire. -/
def get_value (acc : DriveValueAccumulator) : LogicValue :=
  let strong_short := acc.strong_true ≠ 0 ∧ acc.strong_false ≠ 0
  let weak_short := acc.weak_true ≠ 0 ∧ acc.weak_false ≠ 0
  if acc.error ≠ 0 ∨ strong_short ∨ weak_short then .Error
  else if acc.strong_true ≠ 0 then .Driven true
  else if acc.strong_false ≠ 0 then .Driven false
  else if acc.weak_true ≠ 0 then .Driven true
  else if acc.weak_false ≠ 0 then .Driven false
  else .HighImpedance

/-- DriveValueAccumulator::update: decrement for before, increment for
after, return the new accumulator and the newly resolved LogicValue.
Underflow (a Rust strict_sub panic) is none. -/
def update (acc : DriveValueAccumulator) (before after : DriveValue) :
    Option (DriveValueAccumulator × LogicValue) :=
  match acc.subDrive before with
  | none => none
  | some acc1 =>
    let acc2 := acc1.addDrive after
    some (acc2, acc2.get_value)

/-- DriveValueAccumulator::add: pointwise addition of all five counters,
returning the merged accumulator and its resolved LogicValue. -/
def add (acc other : DriveValueAccumulator) : DriveValueAccumulator × LogicValue :=
  let merged : DriveValueAccumulator :=
    ⟨acc.strong_true + other.strong_true, acc.strong_false + other.strong_false,
     acc.weak_true + other.weak_true, acc.weak_false + other.weak_false,
     acc.error + other.error⟩
  (merged, merged.get_value)

end DriveValueAccumulator

/-- Resolution priority exactly as the specification text states it:
Error if the error counter is positive or both strong counters are
positive or both weak counters are positive; else Driven true if
strong_true is positive; else Driven false if strong_false is positive;
else Driven true if weak_true is positive; else Driven false if
weak_false is positive; else HighImpedance. -/
def resolveSpec (acc : DriveValueAccumulator) : LogicValue :=
  if 0 < acc.error ∨ (0 < acc.strong_true ∧ 0 < acc.strong_false) ∨
      (0 < acc.weak_true ∧ 0 < acc.weak_false) then .Error
  else if 0 < acc.strong_true then .Driven true
  else if 0 < acc.strong_false then .Driven false
  else if 0 < acc.weak_true then .Driven true
  else if 0 < acc.weak_false then .Driven false
  else .HighImpedance

/-- C1: for every accumulator state, DriveValueAccumulator::get_value
resolves by the priority table of the specification: Error on any error
count or strong short or weak short; otherwise strong true, strong
false, weak true, weak false, in that order; HighImpedance when all
counters are zero. -/
theorem c1_accumulator_resolution (acc : DriveValueAccumulator) :
    acc.get_value = resolveSpec acc := by
  simp only [DriveValueAccumulator.get_value, resolveSpec, Nat.pos_iff_ne_zero]

/-- C8: the value conversions are the stated total functions and
round-trip where defined: Strong b and Weak b convert to Driven b,
Driven b converts to Strong b, HighImpedance and Error are fixed by both
conversions; converting a DriveValue to a LogicValue and back yields the
original for Strong, HighImpedance and Error, and yields Strong b for
Weak b. -/
theorem c8_conversion_roundtrip :
    (∀ b : Bool, (DriveValue.Strong b).toLogicValue = .Driven b) ∧
    (∀ b : Bool, (DriveValue.Weak b).toLogicValue = .Driven b) ∧
    DriveValue.HighImpedance.toLogicValue = .HighImpedance ∧
    DriveValue.Error.toLogicValue = .Error ∧
    (∀ b : Bool, (LogicValue.Driven b).toDriveValue = .Strong b) ∧
    LogicValue.HighImpedance.toDriveValue = .HighImpedance ∧
    LogicValue.Error.toDriveValue = .Error ∧
    (∀ b : Bool, (DriveValue.Strong b).toLogicValue.toDriveValue = .Strong b) ∧
    DriveValue.HighImpedance.toLogicValue.toDriveValue = .HighImpedance ∧
    DriveValue.Error.toLogicValue.toDriveValue = .Error ∧
    (∀ b : Bool, (DriveValue.Weak b).toLogicValue.toDriveValue = .Strong b) := by
  decide

/-- Struct Pin: the currently visible drive, the optional pending drive
for the next tick, and the index of the wire the pin is attached to. -/
structure Pin where
  current_drive : DriveValue
  next_drive : Option DriveValue
  wire : Nat
deriving DecidableEq, Repr

/-- Struct Wire: the cached resolved value, the ordered list of attached
pins (by index), and the drive accumulator. -/
structure Wire where
  value : LogicValue
  pins : List Nat
  drive_value_accumulator : DriveValueAccumulator
deriving DecidableEq, Repr

/-- Struct Transistor: three pin indices, the activation polarity
(true = NMOS, false = PMOS) and the error hysteresis flag. -/
structure Transistor where
  source : Nat
  gate : Nat
  drain : Nat
  activation : Bool
  error_hysteresis : Bool
deriving DecidableEq, Repr

/-- The whole mutable state of a simulation: pins and transistors are
referenced by list index; a wire slot becomes none when the wire is
dropped after a merge. -/
structure Netlist where
  pins : List Pin
  wires : List (Option Wire)
  transistors : List Transistor
deriving DecidableEq, Repr

namespace Netlist

/-- Replace pin i. -/
def setPin (s : Netlist) (i : Nat) (p : Pin) : Netlist := { s with pins := s.pins.set i p }

/-- Replace wire slot w. -/
def setWire (s : Netlist) (w : Nat) (x : Option Wire) : Netlist := { s with wires := s.wires.set w x }

/-- Replace transistor j. -/
def setTransistor (s : Netlist) (j : Nat) (t : Transistor) : Netlist :=
  { s with transistors := s.transistors.set j t }

/-- Pin::read via Wire::read: the cached LogicValue of the wire of pin i.
A dangling pin or wire reference is none. -/
def readPin (s : Netlist) (i : Nat) : Option LogicValue :=
  match s.pins[i]? with
  | none => none
  | some p =>
    match s.wires[p.wire]? with
    | none => none
    | some none => none
    | some (some w) => some w.value

/-- Pin::set_drive: record a pending drive; a second set within one tick
is a panic (none). -/
def set_drive (s : Netlist) (i : Nat) (newDrive : DriveValue) : Option Netlist :=
  match s.pins[i]? with
  | none => none
  | some p =>
    match p.next_drive with
    | some _ => none
    | none => some (s.setPin i { p with next_drive := some newDrive })

/-- Pin::tick: apply the pending drive if it exists and differs from the
current one, updating the accumulator and cached value of the wire;
clear the pending drive; report whether the drive changed. -/
def pinTick (s : Netlist) (i : Nat) : Option (Netlist × Bool) :=
  match s.pins[i]? with
  | none => none
  | some p =>
    match p.next_drive with
    | none => some (s, false)
    | some next =>
      if p.current_drive = next then
        some (s.setPin i { p with next_drive := none }, false)
      else
        match s.wires[p.wire]? with
        | none => none
        | some none => none
        | some (some w) =>
          match w.drive_value_accumulator.update p.current_drive next with
          | none => none
          | some av =>
            some ((s.setWire p.wire
                (some { w with value := av.2, drive_value_accumulator := av.1 })).setPin i
              { p with current_drive := next, next_drive := none }, true)

end Netlist

/-- Wire::new: an empty wire with an empty accumulator. -/
def Wire.new : Wire :=
  { value := .HighImpedance, pins := [], drive_value_accumulator := .new }

/-- Wire::set_initial_pin: attach the first pin, count its drive in the
accumulator and cache the resolved value; a second call is a panic. -/
def Wire.set_initial_pin (w : Wire) (pid : Nat) (drive : DriveValue) : Option Wire :=
  if w.pins.isEmpty then
    match w.drive_value_accumulator.update .HighImpedance drive with
    | none => none
    | some av => some { value := av.2, pins := [pid], drive_value_accumulator := av.1 }
  else none

namespace Netlist

/-- Pin::new: allocate a fresh pin attached to a fresh wire holding just
that pin, as Wire::new followed by Wire::set_initial_pin. -/
def newPin (s : Netlist) (initial : DriveValue) : Option (Netlist × Nat) :=
  let pid := s.pins.length
  let wid := s.wires.length
  match Wire.new.set_initial_pin pid initial with
  | none => none
  | some w =>
    some ({ pins := s.pins ++ [{ current_drive := initial, next_drive := none, wire := wid }],
            wires := s.wires ++ [some w],
            transistors := s.transistors }, pid)

/-- The redirect loop of Wire::connect: point every listed pin at the
target wire; a dangling pin reference is a panic. -/
def redirectPins (s : Netlist) (target : Nat) : List Nat → Option Netlist
  | [] => some s
  | pid :: rest =>
    match s.pins[pid]? with
    | none => none
    | some p => (s.setPin pid { p with wire := target }).redirectPins target rest

/-- Wire::connect: same wire is a no-op; otherwise redirect the pins of
wire w2 to w1, append the pin list of w2 to that of w1, merge the
accumulators and refresh the cached value, and drop w2. -/
def wireConnect (s : Netlist) (w1 w2 : Nat) : Option Netlist :=
  if w1 = w2 then some s
  else
    match s.wires[w2]? with
    | none => none
    | some none => none
    | some (some wire2) =>
      match s.redirectPins w1 wire2.pins with
      | none => none
      | some s1 =>
        match s1.wires[w1]? with
        | none => none
        | some none => none
        | some (some wire1) =>
          let av := wire1.drive_value_accumulator.add wire2.drive_value_accumulator
          let merged : Wire :=
            { value := av.2, pins := wire1.pins ++ wire2.pins, drive_value_accumulator := av.1 }
          some ((s1.setWire w1 (some merged)).setWire w2 none)

/-- Pin::connect: delegate to Wire::connect on the wires of the two pins. -/
def pinConnect (s : Netlist) (p1 p2 : Nat) : Option Netlist :=
  match s.pins[p1]?, s.pins[p2]? with
  | some q1, some q2 => s.wireConnect q1.wire q2.wire
  | _, _ => none

/-- Pin::get_connected_pins via Wire::get_all_pins: the ordered pin list
of the wire of pin i. -/
def getConnectedPins (s : Netlist) (i : Nat) : Option (List Nat) :=
  match s.pins[i]? with
  | none => none
  | some p =>
    match s.wires[p.wire]? with
    | none => none
    | some none => none
    | some (some w) => some w.pins

/-- Transistor::tick: compute the drain output from the current readings
of gate and source, with the one-tick error hysteresis; set the pending
drive of the drain; report whether the drain output changes (or that
hysteresis was just engaged). -/
def transistorTick (s : Netlist) (j : Nat) : Option (Netlist × Bool) :=
  match s.transistors[j]? with
  | none => none
  | some t =>
    match s.pins[t.drain]? with
    | none => none
    | some dp =>
      let current := dp.current_drive.toLogicValue
      match s.readPin t.gate with
      | none => none
      | some (.Driven drive) =>
        let s1 := s.setTransistor j { t with error_hysteresis := false }
        match (if drive = t.activation then s1.readPin t.source
               else some LogicValue.HighImpedance) with
        | none => none
        | some next =>
          match s1.set_drive t.drain next.toDriveValue with
          | none => none
          | some s2 => some (s2, current != next)
      | some .HighImpedance =>
        if !t.error_hysteresis then
          some (s.setTransistor j { t with error_hysteresis := true }, true)
        else
          match s.set_drive t.drain LogicValue.Error.toDriveValue with
          | none => none
          | some s2 => some (s2, current != LogicValue.Error)
      | some .Error =>
        if !t.error_hysteresis then
          some (s.setTransistor j { t with error_hysteresis := true }, true)
        else
          match s.set_drive t.drain LogicValue.Error.toDriveValue with
          | none => none
          | some s2 => some (s2, current != LogicValue.Error)

/-- The portion of tick_pins at one transistor: tick its drain, gate and
source pins in that order, OR-accumulating the changed flags. -/
def transistorPinsTick (s : Netlist) (j : Nat) : Option (Netlist × Bool) :=
  match s.transistors[j]? with
  | none => none
  | some t =>
    match s.pinTick t.drain with
    | none => none
    | some sc1 =>
      match sc1.1.pinTick t.gate with
      | none => none
      | some sc2 =>
        match sc2.1.pinTick t.source with
        | none => none
        | some sc3 => some (sc3.1, sc1.2 || sc2.2 || sc3.2)

end Netlist

mutual

/-- A device hierarchy: each device optionally is a transistor (indexed
into the netlist) and owns an ordered forest of child devices.  The
forest order stands for the traversal order the driver uses on the
children collections. -/
inductive DeviceTree where
  | mk (transistor : Option Nat) (children : DeviceForest)

/-- An ordered collection of sibling devices. -/
inductive DeviceForest where
  | nil
  | cons (head : DeviceTree) (tail : DeviceForest)

end

mutual

/-- Simulation tick_transistors on one device: tick the transistor if the
device is one, then recurse through the children, OR-accumulating. -/
def tickTransistorsDev (s : Netlist) : DeviceTree → Option (Netlist × Bool)
  | .mk tid children =>
    match (match tid with
           | some j => s.transistorTick j
           | none => some (s, false)) with
    | none => none
    | some sc1 =>
      match tickTransistorsForest sc1.1 children with
      | none => none
      | some sc2 => some (sc2.1, sc1.2 || sc2.2)

/-- Simulation tick_transistors over a children collection. -/
def tickTransistorsForest (s : Netlist) : DeviceForest → Option (Netlist × Bool)
  | .nil => some (s, false)
  | .cons d ds =>
    match tickTransistorsDev s d with
    | none => none
    | some sc1 =>
      match tickTransistorsForest sc1.1 ds with
      | none => none
      | some sc2 => some (sc2.1, sc1.2 || sc2.2)

end

mutual

/-- Simulation tick_pins on one device: tick the three pins of the
transistor if the device is one, then recurse through the children. -/
def tickPinsDev (s : Netlist) : DeviceTree → Option (Netlist × Bool)
  | .mk tid children =>
    match (match tid with
           | some j => s.transistorPinsTick j
           | none => some (s, false)) with
    | none => none
    | some sc1 =>
      match tickPinsForest sc1.1 children with
      | none => none
      | some sc2 => some (sc2.1, sc1.2 || sc2.2)

/-- Simulation tick_pins over a children collection. -/
def tickPinsForest (s : Netlist) : DeviceForest → Option (Netlist × Bool)
  | .nil => some (s, false)
  | .cons d ds =>
    match tickPinsDev s d with
    | none => none
    | some sc1 =>
      match tickPinsForest sc1.1 ds with
      | none => none
      | some sc2 => some (sc2.1, sc1.2 || sc2.2)

end

/-- Simulation tick: Phase A (tick_transistors) over the whole tree, then
Phase B (tick_pins) over the whole tree, returning the OR of the flags. -/
def tick (s : Netlist) (d : DeviceTree) : Option (Netlist × Bool) :=
  match tickTransistorsDev s d with
  | none => none
  | some sc1 =>
    match tickPinsDev sc1.1 d with
    | none => none
    | some sc2 => some (sc2.1, sc1.2 || sc2.2)

/-- Simulation settle: iterate tick until it reports no change, counting
the ticks.  The fuel bounds the iteration in the model only; exhausting
it (a non-settling network) is none. -/
def settle : Nat → Netlist → DeviceTree → Option (Nat × Netlist)
  | 0, _, _ => none
  | fuel + 1, s, d =>
    match tick s d with
    | none => none
    | some sc =>
      if sc.2 then
        match settle fuel sc.1 d with
        | none => none
        | some ns => some (ns.1 + 1, ns.2)
      else
        some (0, sc.1)

mutual

/-- Whether a device tree contains no transistor anywhere. -/
def noTransistorsDev : DeviceTree → Bool
  | .mk tid children => tid.isNone && noTransistorsForest children

/-- Whether a forest contains no transistor anywhere. -/
def noTransistorsForest : DeviceForest → Bool
  | .nil => true
  | .cons d ds => noTransistorsDev d && noTransistorsForest ds

end

mutual

/-- The transistor indices of a tree in traversal order. -/
def treeTidsDev : DeviceTree → List Nat
  | .mk tid children => (match tid with | some j => [j] | none => []) ++ treeTidsForest children

/-- The transistor indices of a forest in traversal order. -/
def treeTidsForest : DeviceForest → List Nat
  | .nil => []
  | .cons d ds => treeTidsDev d ++ treeTidsForest ds

end

/-! Basic facts about the state updates. -/

namespace Netlist

theorem setPin_wires (s : Netlist) (i : Nat) (p : Pin) : (s.setPin i p).wires = s.wires := rfl

theorem setPin_transistors (s : Netlist) (i : Nat) (p : Pin) :
    (s.setPin i p).transistors = s.transistors := rfl

theorem setWire_pins (s : Netlist) (w : Nat) (x : Option Wire) : (s.setWire w x).pins = s.pins := rfl

theorem setWire_transistors (s : Netlist) (w : Nat) (x : Option Wire) :
    (s.setWire w x).transistors = s.transistors := rfl

theorem setTransistor_pins (s : Netlist) (j : Nat) (t : Transistor) :
    (s.setTransistor j t).pins = s.pins := rfl

theorem setTransistor_wires (s : Netlist) (j : Nat) (t : Transistor) :
    (s.setTransistor j t).wires = s.wires := rfl

theorem setPin_length (s : Netlist) (i : Nat) (p : Pin) :
    (s.setPin i p).pins.length = s.pins.length := List.length_set ..

theorem getElem?_setPin_self {s : Netlist} {i : Nat} {q : Pin} (p : Pin)
    (h : s.pins[i]? = some q) : (s.setPin i p).pins[i]? = some p := by
  exact List.getElem?_set_self (List.getElem?_eq_some.1 h).1

theorem getElem?_setPin_ne (s : Netlist) {i j : Nat} (p : Pin) (h : i ≠ j) :
    (s.setPin i p).pins[j]? = s.pins[j]? := List.getElem?_set_ne h

theorem mem_pins_lt {s : Netlist} {i : Nat} {p : Pin} (h : s.pins[i]? = some p) :
    i < s.pins.length := (List.getElem?_eq_some.1 h).1

theorem mem_wires_lt {s : Netlist} {w : Nat} {x : Option Wire} (h : s.wires[w]? = some x) :
    w < s.wires.length := (List.getElem?_eq_some.1 h).1

end Netlist

/-- C6: connecting two pins that already share a wire (including a pin
with itself) is a no-op: Pin::connect returns with the whole netlist
state, in particular the pin list, accumulator and cached value of the
shared wire, unchanged. -/
theorem c6_connect_idempotent (s : Netlist) (p q : Nat) (qp qq : Pin)
    (hp : s.pins[p]? = some qp) (hq : s.pins[q]? = some qq)
    (hw : qp.wire = qq.wire) :
    s.pinConnect p q = some s := by
  simp [Netlist.pinConnect, hp, hq, Netlist.wireConnect, hw]

/-- One pin on one wire, used to instantiate theorems about connect. -/
def sampleSelf : Netlist :=
  { pins := [⟨.HighImpedance, none, 0⟩],
    wires := [some ⟨.HighImpedance, [0], .new⟩],
    transistors := [] }

/-- Witness for C6 at a concrete one-pin netlist: connecting pin 0 to
itself leaves the state unchanged. -/
theorem c6_connect_idempotent_witness : sampleSelf.pinConnect 0 0 = some sampleSelf :=
  c6_connect_idempotent sampleSelf 0 0 ⟨.HighImpedance, none, 0⟩ ⟨.HighImpedance, none, 0⟩
    rfl rfl rfl

/-! The redirect loop and the wire merge of Wire::connect. -/

/-- Characterization of the redirect loop: it succeeds when every listed
pin exists, changes exactly the wire references of the listed pins, and
leaves everything else alone. -/
theorem redirectPins_spec (target : Nat) (l : List Nat) :
    ∀ (s : Netlist), (∀ pid ∈ l, ∃ p, s.pins[pid]? = some p) →
    ∃ s1, s.redirectPins target l = some s1 ∧
      s1.wires = s.wires ∧ s1.transistors = s.transistors ∧
      s1.pins.length = s.pins.length ∧
      (∀ i, i ∉ l → s1.pins[i]? = s.pins[i]?) ∧
      (∀ i ∈ l, s1.pins[i]? = (s.pins[i]?).map fun p => { p with wire := target }) := by
  induction l with
  | nil =>
    intro s _
    exact ⟨s, rfl, rfl, rfl, rfl, fun _ _ => rfl, fun i hi => absurd hi (List.not_mem_nil i)⟩
  | cons pid rest ih =>
    intro s hex
    obtain ⟨p, hp⟩ := hex pid (List.mem_cons_self pid rest)
    set s' := s.setPin pid { p with wire := target } with hs'
    have hex' : ∀ q ∈ rest, ∃ r, s'.pins[q]? = some r := by
      intro q hq
      obtain ⟨r, hr⟩ := hex q (List.mem_cons_of_mem _ hq)
      by_cases hqp : pid = q
      · subst hqp
        exact ⟨_, Netlist.getElem?_setPin_self _ hp⟩
      · exact ⟨r, by rw [Netlist.getElem?_setPin_ne s _ hqp]; exact hr⟩
    obtain ⟨s1, hrun, hw, ht, hlen, hout, hin⟩ := ih s' hex'
    refine ⟨s1, ?_, hw, ht, by rw [hlen, Netlist.setPin_length], ?_, ?_⟩
    · simp only [Netlist.redirectPins, hp]
      exact hrun
    · intro i hi
      have hi1 : i ≠ pid := fun h => hi (h ▸ List.mem_cons_self pid rest)
      have hi2 : i ∉ rest := fun h => hi (List.mem_cons_of_mem _ h)
      rw [hout i hi2, Netlist.getElem?_setPin_ne s _ (Ne.symm hi1)]
    · intro i hi
      rcases List.mem_cons.1 hi with hi | hi
      · subst hi
        by_cases hm : i ∈ rest
        · rw [hin i hm, Netlist.getElem?_setPin_self _ hp, hp]
          rfl
        · rw [hout i hm, Netlist.getElem?_setPin_self _ hp, hp]
          rfl
      · by_cases hqp : pid = i
        · subst hqp
          rw [hin pid hi, Netlist.getElem?_setPin_self _ hp, hp]
          rfl
        · rw [hin i hi, Netlist.getElem?_setPin_ne s _ hqp]

/-- Characterization of Wire::connect for two distinct live wires: the
pins of the second wire are redirected, the first wire receives the
appended pin list and merged accumulator, and the second wire is
dropped. -/
theorem wireConnect_merge (s : Netlist) (w1 w2 : Nat) (wire1 wire2 : Wire)
    (hne : w1 ≠ w2)
    (h1 : s.wires[w1]? = some (some wire1))
    (h2 : s.wires[w2]? = some (some wire2))
    (hex : ∀ pid ∈ wire2.pins, ∃ p, s.pins[pid]? = some p) :
    ∃ s2, s.wireConnect w1 w2 = some s2 ∧
      s2.transistors = s.transistors ∧
      s2.pins.length = s.pins.length ∧
      (∀ i, i ∉ wire2.pins → s2.pins[i]? = s.pins[i]?) ∧
      (∀ i ∈ wire2.pins, s2.pins[i]? = (s.pins[i]?).map fun p => { p with wire := w1 }) ∧
      s2.wires[w1]? = some (some
        { value := (wire1.drive_value_accumulator.add wire2.drive_value_accumulator).2,
          pins := wire1.pins ++ wire2.pins,
          drive_value_accumulator :=
            (wire1.drive_value_accumulator.add wire2.drive_value_accumulator).1 }) ∧
      s2.wires[w2]? = some none ∧
      (∀ wid, wid ≠ w1 → wid ≠ w2 → s2.wires[wid]? = s.wires[wid]?) := by
  obtain ⟨s1, hrun, hw, ht, hlen, hout, hin⟩ := redirectPins_spec w1 wire2.pins s hex
  have h1' : s1.wires[w1]? = some (some wire1) := by rw [hw]; exact h1
  have hlt1 : w1 < s1.wires.length := Netlist.mem_wires_lt h1'
  have hlt2 : w2 < s1.wires.length := Netlist.mem_wires_lt (by rw [hw]; exact h2)
  refine ⟨(s1.setWire w1 (some
      { value := (wire1.drive_value_accumulator.add wire2.drive_value_accumulator).2,
        pins := wire1.pins ++ wire2.pins,
        drive_value_accumulator :=
          (wire1.drive_value_accumulator.add wire2.drive_value_accumulator).1 })).setWire w2 none,
    ?_, ht, hlen, hout, hin, ?_, ?_, ?_⟩
  · simp only [Netlist.wireConnect, if_neg hne, h2, hrun, h1']
  · show ((s1.wires.set w1 _).set w2 none)[w1]? = _
    rw [List.getElem?_set_ne (Ne.symm hne), List.getElem?_set_self hlt1]
  · show ((s1.wires.set w1 _).set w2 none)[w2]? = _
    rw [List.getElem?_set_self (by simpa using hlt2)]
  · intro wid hw1 hw2
    show ((s1.wires.set w1 _).set w2 none)[wid]? = _
    rw [List.getElem?_set_ne (Ne.symm hw2), List.getElem?_set_ne (Ne.symm hw1), hw]

/-- Well-formedness of the pin/wire fabric: every pin is attached to a
live wire that lists it, and every pin listed by a wire exists and
points back at that wire.  Both invariants hold by construction in the
source, where pins own their wire and wires hold back-references. -/
def WF (s : Netlist) : Prop :=
  (∀ (i : Nat) (p : Pin), s.pins[i]? = some p →
    ∃ w, s.wires[p.wire]? = some (some w) ∧ i ∈ w.pins) ∧
  (∀ (wid : Nat) (w : Wire), s.wires[wid]? = some (some w) →
    ∀ i ∈ w.pins, ∃ p, s.pins[i]? = some p ∧ p.wire = wid)

/-- C5: after Pin::connect, both pins report the same ordered connected
list; the list contains exactly the pins sharing the wire, including
both pins themselves; when the pins were on the same wire the state and
the order are unchanged, and when two wires merge the surviving order is
the pins of the first wire followed by the pins of the second wire. -/
theorem c5_connect_ordered_pins (s s2 : Netlist) (p q : Nat) (qp qq : Pin)
    (hWF : WF s)
    (hp : s.pins[p]? = some qp) (hq : s.pins[q]? = some qq)
    (hc : s.pinConnect p q = some s2) :
    ∃ l, s2.getConnectedPins p = some l ∧ s2.getConnectedPins q = some l ∧
      p ∈ l ∧ q ∈ l ∧
      (∀ r, r ∈ l ↔ ∃ pr pp, s2.pins[r]? = some pr ∧ s2.pins[p]? = some pp ∧
        pr.wire = pp.wire) ∧
      ((qp.wire = qq.wire ∧ s2 = s ∧ ∃ w, s.wires[qp.wire]? = some (some w) ∧ l = w.pins) ∨
       (qp.wire ≠ qq.wire ∧ ∃ w1 w2, s.wires[qp.wire]? = some (some w1) ∧
          s.wires[qq.wire]? = some (some w2) ∧ l = w1.pins ++ w2.pins)) := by
  obtain ⟨hWF1, hWF2⟩ := hWF
  obtain ⟨w1, hw1, hpmem⟩ := hWF1 p qp hp
  obtain ⟨w2, hw2, hqmem⟩ := hWF1 q qq hq
  simp only [Netlist.pinConnect, hp, hq] at hc
  by_cases hw : qp.wire = qq.wire
  · simp only [Netlist.wireConnect, if_pos hw] at hc
    obtain rfl : s = s2 := Option.some_injective _ hc
    rw [hw] at hw1
    rw [hw1] at hw2
    obtain rfl : w1 = w2 := by injection Option.some_injective _ hw2 with h
    refine ⟨w1.pins, ?_, ?_, hpmem, hqmem, ?_, Or.inl ⟨hw, rfl, w1, by rw [hw]; exact hw1, rfl⟩⟩
    · simp only [Netlist.getConnectedPins, hp, hw, hw1]
    · simp only [Netlist.getConnectedPins, hq, hw1]
    · intro r
      constructor
      · intro hr
        obtain ⟨pr, hpr, hprw⟩ := hWF2 qq.wire w1 hw1 r hr
        exact ⟨pr, qp, hpr, hp, by rw [hprw, hw]⟩
      · rintro ⟨pr, pp, hpr, hpp, hprw⟩
        rw [hp] at hpp
        obtain rfl : qp = pp := by injection hpp
        obtain ⟨w', hw', hrmem⟩ := hWF1 r pr hpr
        rw [hprw, hw, hw1] at hw'
        obtain rfl : w1 = w' := by injection Option.some_injective _ hw'
        exact hrmem
  · have hex : ∀ pid ∈ w2.pins, ∃ r, s.pins[pid]? = some r := by
      intro pid hpid
      obtain ⟨r, hr, _⟩ := hWF2 qq.wire w2 hw2 pid hpid
      exact ⟨r, hr⟩
    obtain ⟨s2', hrun, ht, hlen, hout, hin, hm1, hm2, hmo⟩ :=
      wireConnect_merge s qp.wire qq.wire w1 w2 hw hw1 hw2 hex
    rw [hrun] at hc
    obtain rfl : s2' = s2 := Option.some_injective _ hc
    have hpnot : p ∉ w2.pins := by
      intro hmem
      obtain ⟨pp, hpp, hppw⟩ := hWF2 qq.wire w2 hw2 p hmem
      rw [hp] at hpp
      obtain rfl : qp = pp := by injection hpp
      exact hw hppw
    have hp2 : s2'.pins[p]? = some qp := by rw [hout p hpnot, hp]
    have hq2 : s2'.pins[q]? = some { qq with wire := qp.wire } := by
      rw [hin q hqmem, hq]
      rfl
    refine ⟨w1.pins ++ w2.pins, ?_, ?_, List.mem_append_left _ hpmem,
      List.mem_append_right _ hqmem, ?_, Or.inr ⟨hw, w1, w2, hw1, hw2, rfl⟩⟩
    · simp only [Netlist.getConnectedPins, hp2, hm1]
    · simp only [Netlist.getConnectedPins, hq2, hm1]
    · intro r
      constructor
      · intro hr
        by_cases hrw2 : r ∈ w2.pins
        · obtain ⟨pr, hpr, _⟩ := hWF2 qq.wire w2 hw2 r hrw2
          exact ⟨{ pr with wire := qp.wire }, qp, by rw [hin r hrw2, hpr]; rfl, hp2, rfl⟩
        · rcases List.mem_append.1 hr with hr1 | hr1
          · obtain ⟨pr, hpr, hprw⟩ := hWF2 qp.wire w1 hw1 r hr1
            exact ⟨pr, qp, by rw [hout r hrw2, hpr], hp2, hprw⟩
          · exact absurd hr1 hrw2
      · rintro ⟨pr, pp, hpr, hpp, hprw⟩
        rw [hp2] at hpp
        obtain rfl : qp = pp := by injection hpp
        by_cases hrw2 : r ∈ w2.pins
        · exact List.mem_append_right _ hrw2
        · rw [hout r hrw2] at hpr
          obtain ⟨w', hw', hrmem⟩ := hWF1 r pr hpr
          rw [hprw, hw1] at hw'
          obtain rfl : w1 = w' := by injection Option.some_injective _ hw'
          exact List.mem_append_left _ hrmem

/-! Phase A frame property: ticking transistors writes only pending
drives and hysteresis flags. -/

/-- What Phase A leaves untouched: the wires (hence every resolved
value), every pin current drive and wire reference, and the pin indices
and activation of every transistor. -/
structure FrameA (s s2 : Netlist) : Prop where
  wires_eq : s2.wires = s.wires
  pin_current : ∀ i : Nat,
    (s2.pins[i]?).map Pin.current_drive = (s.pins[i]?).map Pin.current_drive
  pin_wire : ∀ i : Nat, (s2.pins[i]?).map Pin.wire = (s.pins[i]?).map Pin.wire
  pins_len : s2.pins.length = s.pins.length
  trans_keep : ∀ j : Nat,
    (s2.transistors[j]?).map (fun t => (t.source, t.gate, t.drain, t.activation)) =
    (s.transistors[j]?).map (fun t => (t.source, t.gate, t.drain, t.activation))

theorem frameA_refl (s : Netlist) : FrameA s s :=
  ⟨rfl, fun _ => rfl, fun _ => rfl, rfl, fun _ => rfl⟩

theorem frameA_trans {s1 s2 s3 : Netlist} (h1 : FrameA s1 s2) (h2 : FrameA s2 s3) :
    FrameA s1 s3 :=
  ⟨h2.wires_eq.trans h1.wires_eq,
   fun i => (h2.pin_current i).trans (h1.pin_current i),
   fun i => (h2.pin_wire i).trans (h1.pin_wire i),
   h2.pins_len.trans h1.pins_len,
   fun j => (h2.trans_keep j).trans (h1.trans_keep j)⟩

theorem frameA_setPin_next {s : Netlist} {i : Nat} {p : Pin} (h : s.pins[i]? = some p)
    (x : Option DriveValue) : FrameA s (s.setPin i { p with next_drive := x }) := by
  refine ⟨rfl, ?_, ?_, Netlist.setPin_length .., fun _ => rfl⟩ <;>
    intro j <;> by_cases hij : i = j
  · subst hij
    rw [Netlist.getElem?_setPin_self _ h, h]
    rfl
  · rw [Netlist.getElem?_setPin_ne s _ hij]
  · subst hij
    rw [Netlist.getElem?_setPin_self _ h, h]
    rfl
  · rw [Netlist.getElem?_setPin_ne s _ hij]

theorem frameA_setTransistor {s : Netlist} {j : Nat} {t : Transistor}
    (h : s.transistors[j]? = some t) (b : Bool) :
    FrameA s (s.setTransistor j { t with error_hysteresis := b }) := by
  refine ⟨rfl, fun _ => rfl, fun _ => rfl, rfl, ?_⟩
  intro k
  unfold Netlist.setTransistor
  simp only
  by_cases hjk : j = k
  · subst hjk
    rw [List.getElem?_set_self (List.getElem?_eq_some.1 h).1, h]
    rfl
  · rw [List.getElem?_set_ne hjk]

/-- Reads are invariant under the Phase A frame. -/
theorem readPin_frameA {s s2 : Netlist} (h : FrameA s s2) (i : Nat) :
    s2.readPin i = s.readPin i := by
  have hw := h.pin_wire i
  cases hs : s.pins[i]? with
  | none =>
    rw [hs] at hw
    have hs2 : s2.pins[i]? = none := by
      cases hs2 : s2.pins[i]? with
      | none => rfl
      | some p2 => rw [hs2] at hw; simp at hw
    simp only [Netlist.readPin, hs, hs2]
  | some p =>
    rw [hs] at hw
    cases hs2 : s2.pins[i]? with
    | none => rw [hs2] at hw; simp at hw
    | some p2 =>
      rw [hs2] at hw
      simp only [Option.map_some'] at hw
      have hpw : p2.wire = p.wire := by injection hw
      simp only [Netlist.readPin, hs, hs2, hpw, h.wires_eq]

/-- Transistor lookups are invariant under the Phase A frame up to the
hysteresis flag. -/
theorem trans_lookup_frameA {s s2 : Netlist} (h : FrameA s s2) {j : Nat} {t : Transistor}
    (ht : s.transistors[j]? = some t) :
    ∃ t2, s2.transistors[j]? = some t2 ∧ t2.source = t.source ∧ t2.gate = t.gate ∧
      t2.drain = t.drain ∧ t2.activation = t.activation := by
  have hk := h.trans_keep j
  rw [ht] at hk
  cases hs2 : s2.transistors[j]? with
  | none => rw [hs2] at hk; cases hk
  | some t2 =>
    rw [hs2] at hk
    have := Option.some_injective _ hk
    exact ⟨t2, rfl, congrArg Prod.fst this,
      congrArg Prod.fst (congrArg Prod.snd this),
      congrArg Prod.fst (congrArg Prod.snd (congrArg Prod.snd this)),
      congrArg Prod.snd (congrArg Prod.snd (congrArg Prod.snd this))⟩

/-- Characterization of Pin::set_drive when it succeeds. -/
theorem set_drive_spec {s s2 : Netlist} {i : Nat} {v : DriveValue}
    (h : s.set_drive i v = some s2) :
    ∃ p, s.pins[i]? = some p ∧ p.next_drive = none ∧
      s2 = s.setPin i { p with next_drive := some v } := by
  unfold Netlist.set_drive at h
  cases hs : s.pins[i]? with
  | none => simp only [hs] at h; exact Option.noConfusion h
  | some p =>
    simp only [hs] at h
    cases hn : p.next_drive with
    | some _ => simp only [hn] at h; exact Option.noConfusion h
    | none =>
      simp only [hn] at h
      exact ⟨p, rfl, hn, (Option.some_injective _ h).symm⟩

/-- Transistor::tick only writes a pending drive and the hysteresis
flag. -/
theorem transistorTick_frameA {s s2 : Netlist} {j : Nat} {c : Bool}
    (h : s.transistorTick j = some (s2, c)) : FrameA s s2 := by
  unfold Netlist.transistorTick at h
  cases hT : s.transistors[j]? with
  | none => simp only [hT] at h; exact Option.noConfusion h
  | some t =>
    simp only [hT] at h
    cases hD : s.pins[t.drain]? with
    | none => simp only [hD] at h; exact Option.noConfusion h
    | some dp =>
      simp only [hD] at h
      cases hG : s.readPin t.gate with
      | none => simp only [hG] at h; exact Option.noConfusion h
      | some g =>
        simp only [hG] at h
        have hyst : FrameA s (s.setTransistor j { t with error_hysteresis := false }) :=
          frameA_setTransistor hT false
        cases g with
        | Driven drive =>
          cases hN : (if drive = t.activation
              then (s.setTransistor j { t with error_hysteresis := false }).readPin t.source
              else some LogicValue.HighImpedance) with
          | none => simp only [hN] at h; exact Option.noConfusion h
          | some next =>
            simp only [hN] at h
            cases hSD : (s.setTransistor j { t with error_hysteresis := false }).set_drive
                t.drain next.toDriveValue with
            | none => simp only [hSD] at h; exact Option.noConfusion h
            | some s3 =>
              simp only [hSD] at h
              have h2 : s3 = s2 := congrArg Prod.fst (Option.some_injective _ h)
              obtain ⟨p, hp, -, h3⟩ := set_drive_spec hSD
              rw [← h2, h3]
              exact frameA_trans hyst (frameA_setPin_next hp _)
        | HighImpedance =>
          by_cases hh : t.error_hysteresis
          · simp only [hh, Bool.not_true, Bool.false_eq_true, if_false] at h
            cases hSD : s.set_drive t.drain LogicValue.Error.toDriveValue with
            | none => simp only [hSD] at h; exact Option.noConfusion h
            | some s3 =>
              simp only [hSD] at h
              have h2 : s3 = s2 := congrArg Prod.fst (Option.some_injective _ h)
              obtain ⟨p, hp, -, h3⟩ := set_drive_spec hSD
              rw [← h2, h3]
              exact frameA_setPin_next hp _
          · simp only [Bool.not_eq_true] at hh
            simp only [hh, Bool.not_false, if_true] at h
            have h2 := congrArg Prod.fst (Option.some_injective _ h)
            simp only at h2
            exact h2 ▸ frameA_setTransistor hT true
        | Error =>
          by_cases hh : t.error_hysteresis
          · simp only [hh, Bool.not_true, Bool.false_eq_true, if_false] at h
            cases hSD : s.set_drive t.drain LogicValue.Error.toDriveValue with
            | none => simp only [hSD] at h; exact Option.noConfusion h
            | some s3 =>
              simp only [hSD] at h
              have h2 : s3 = s2 := congrArg Prod.fst (Option.some_injective _ h)
              obtain ⟨p, hp, -, h3⟩ := set_drive_spec hSD
              rw [← h2, h3]
              exact frameA_setPin_next hp _
          · simp only [Bool.not_eq_true] at hh
            simp only [hh, Bool.not_false, if_true] at h
            have h2 := congrArg Prod.fst (Option.some_injective _ h)
            simp only at h2
            exact h2 ▸ frameA_setTransistor hT true

mutual

theorem tickTransistorsDev_frameA : ∀ (d : DeviceTree) (s s2 : Netlist) (c : Bool),
    tickTransistorsDev s d = some (s2, c) → FrameA s s2
  | .mk tid children, s, s2, c, h => by
    simp only [tickTransistorsDev] at h
    cases tid with
    | none =>
      simp only at h
      cases hF : tickTransistorsForest s children with
      | none => simp only [hF] at h; exact Option.noConfusion h
      | some sc2 =>
        simp only [hF] at h
        have h1 : sc2.1 = s2 := congrArg Prod.fst (Option.some_injective _ h)
        exact h1 ▸ tickTransistorsForest_frameA children s sc2.1 sc2.2 (by rw [hF])
    | some j =>
      simp only at h
      cases hT : s.transistorTick j with
      | none => simp only [hT] at h; exact Option.noConfusion h
      | some sc1 =>
        simp only [hT] at h
        cases hF : tickTransistorsForest sc1.1 children with
        | none => simp only [hF] at h; exact Option.noConfusion h
        | some sc2 =>
          simp only [hF] at h
          have h1 : sc2.1 = s2 := congrArg Prod.fst (Option.some_injective _ h)
          have hA : FrameA s sc1.1 := transistorTick_frameA (by rw [hT])
          exact h1 ▸ frameA_trans hA (tickTransistorsForest_frameA children sc1.1 sc2.1 sc2.2 (by rw [hF]))

theorem tickTransistorsForest_frameA : ∀ (ds : DeviceForest) (s s2 : Netlist) (c : Bool),
    tickTransistorsForest s ds = some (s2, c) → FrameA s s2
  | .nil, s, s2, c, h => by
    simp only [tickTransistorsForest] at h
    have h1 : s = s2 := congrArg Prod.fst (Option.some_injective _ h)
    exact h1 ▸ frameA_refl s
  | .cons d ds, s, s2, c, h => by
    simp only [tickTransistorsForest] at h
    cases hD : tickTransistorsDev s d with
    | none => simp only [hD] at h; exact Option.noConfusion h
    | some sc1 =>
      simp only [hD] at h
      cases hF : tickTransistorsForest sc1.1 ds with
      | none => simp only [hF] at h; exact Option.noConfusion h
      | some sc2 =>
        simp only [hF] at h
        have h1 : sc2.1 = s2 := congrArg Prod.fst (Option.some_injective _ h)
        exact h1 ▸ frameA_trans (tickTransistorsDev_frameA d s sc1.1 sc1.2 (by rw [hD]))
          (tickTransistorsForest_frameA ds sc1.1 sc2.1 sc2.2 (by rw [hF]))

end

/-- C4: within a tick, Phase A (tick_transistors over the whole tree)
runs before Phase B (tick_pins) by definition of tick, and Phase A never
changes a pin current drive or a wire resolved value: every transistor
computes from the same frozen pre-tick view, writing only pending-drive
slots and hysteresis flags. -/
theorem c4_phaseA_frame (s s2 : Netlist) (c : Bool) (d : DeviceTree)
    (h : tickTransistorsDev s d = some (s2, c)) :
    (∀ sc1, tickTransistorsDev s d = some sc1 →
      tick s d = (match tickPinsDev sc1.1 d with
                  | none => none
                  | some sc2 => some (sc2.1, sc1.2 || sc2.2))) ∧
    s2.wires = s.wires ∧
    (∀ i : Nat, (s2.pins[i]?).map Pin.current_drive = (s.pins[i]?).map Pin.current_drive) := by
  have hA := tickTransistorsDev_frameA d s s2 c h
  refine ⟨?_, hA.wires_eq, hA.pin_current⟩
  intro sc1 h1
  rw [tick, h1]

/-- A one-transistor netlist at a stable point: an NMOS whose gate reads
Driven true, whose source reads Driven false, and whose drain already
drives Strong false. -/
def sampleNmos : Netlist :=
  { pins := [⟨.Strong false, none, 0⟩, ⟨.Strong true, none, 1⟩, ⟨.Strong false, none, 2⟩],
    wires := [some ⟨.Driven false, [0], ⟨0, 1, 0, 0, 0⟩⟩,
              some ⟨.Driven true, [1], ⟨1, 0, 0, 0, 0⟩⟩,
              some ⟨.Driven false, [2], ⟨0, 1, 0, 0, 0⟩⟩],
    transistors := [⟨0, 1, 2, true, false⟩] }

/-- The device tree owning the single transistor of sampleNmos. -/
def sampleNmosTree : DeviceTree := .mk (some 0) .nil

/-- Witness for C4 on the concrete one-transistor netlist. -/
theorem c4_phaseA_frame_witness :
    (∀ sc1, tickTransistorsDev sampleNmos sampleNmosTree = some sc1 →
      tick sampleNmos sampleNmosTree =
        (match tickPinsDev sc1.1 sampleNmosTree with
         | none => none
         | some sc2 => some (sc2.1, sc1.2 || sc2.2))) ∧
    (sampleNmos.setPin 2 ⟨.Strong false, some (.Strong false), 2⟩).wires = sampleNmos.wires ∧
    (∀ i : Nat,
      (((sampleNmos.setPin 2 ⟨.Strong false, some (.Strong false), 2⟩).pins[i]?).map
        Pin.current_drive) = (sampleNmos.pins[i]?).map Pin.current_drive) :=
  c4_phaseA_frame sampleNmos (sampleNmos.setPin 2 ⟨.Strong false, some (.Strong false), 2⟩)
    false sampleNmosTree (by rfl)

/-! The cached-value invariant: every live wire caches the resolved
value of its accumulator. -/

/-- Every live wire caches exactly the LogicValue its accumulator
resolves to. -/
def WFvalue (s : Netlist) : Prop :=
  ∀ (wid : Nat) (w : Wire), s.wires[wid]? = some (some w) →
    w.value = w.drive_value_accumulator.get_value

theorem update_snd {acc : DriveValueAccumulator} {b a : DriveValue}
    {av : DriveValueAccumulator × LogicValue} (h : acc.update b a = some av) :
    av.2 = av.1.get_value := by
  unfold DriveValueAccumulator.update at h
  cases hs : acc.subDrive b with
  | none => simp only [hs] at h; exact Option.noConfusion h
  | some acc1 =>
    simp only [hs] at h
    rw [← Option.some_injective _ h]

theorem WFvalue_of_wires_eq {s s2 : Netlist} (h : s2.wires = s.wires) (hwf : WFvalue s) :
    WFvalue s2 := fun wid w hw => hwf wid w (h ▸ hw)

theorem pinTick_WFvalue {s s2 : Netlist} {i : Nat} {c : Bool}
    (h : s.pinTick i = some (s2, c)) (hwf : WFvalue s) : WFvalue s2 := by
  unfold Netlist.pinTick at h
  cases hp : s.pins[i]? with
  | none => simp only [hp] at h; exact Option.noConfusion h
  | some p =>
    simp only [hp] at h
    cases hn : p.next_drive with
    | none =>
      simp only [hn] at h
      have h1 : s = s2 := congrArg Prod.fst (Option.some_injective _ h)
      exact h1 ▸ hwf
    | some next =>
      simp only [hn] at h
      by_cases he : p.current_drive = next
      · rw [if_pos he] at h
        injection h with h'
        injection h' with hA hB
        subst hA
        exact WFvalue_of_wires_eq rfl hwf
      · rw [if_neg he] at h
        cases hw : s.wires[p.wire]? with
        | none => simp only [hw] at h; exact Option.noConfusion h
        | some ow =>
          cases ow with
          | none => simp only [hw] at h; exact Option.noConfusion h
          | some w =>
            simp only [hw] at h
            cases hu : w.drive_value_accumulator.update p.current_drive next with
            | none => simp only [hu] at h; exact Option.noConfusion h
            | some av =>
              simp only [hu] at h
              injection h with h'
              injection h' with hA hB
              subst hA
              intro wid w2 hw2
              have hw2' : (s.wires.set p.wire
                  (some { w with value := av.2, drive_value_accumulator := av.1 }))[wid]? =
                  some (some w2) := hw2
              by_cases hww : p.wire = wid
              · subst hww
                rw [List.getElem?_set_self (Netlist.mem_wires_lt hw)] at hw2'
                have h3 := Option.some_injective _ (Option.some_injective _ hw2')
                rw [← h3]
                exact update_snd hu
              · rw [List.getElem?_set_ne hww] at hw2'
                exact hwf wid w2 hw2'

theorem transistorPinsTick_WFvalue {s s2 : Netlist} {j : Nat} {c : Bool}
    (h : s.transistorPinsTick j = some (s2, c)) (hwf : WFvalue s) : WFvalue s2 := by
  unfold Netlist.transistorPinsTick at h
  cases hT : s.transistors[j]? with
  | none => simp only [hT] at h; exact Option.noConfusion h
  | some t =>
    simp only [hT] at h
    cases h1 : s.pinTick t.drain with
    | none => simp only [h1] at h; exact Option.noConfusion h
    | some sc1 =>
      simp only [h1] at h
      cases h2 : sc1.1.pinTick t.gate with
      | none => simp only [h2] at h; exact Option.noConfusion h
      | some sc2 =>
        simp only [h2] at h
        cases h3 : sc2.1.pinTick t.source with
        | none => simp only [h3] at h; exact Option.noConfusion h
        | some sc3 =>
          simp only [h3] at h
          have h4 : sc3.1 = s2 := congrArg Prod.fst (Option.some_injective _ h)
          exact h4 ▸ pinTick_WFvalue (by rw [h3])
            (pinTick_WFvalue (by rw [h2]) (pinTick_WFvalue (by rw [h1]) hwf))

mutual

theorem tickPinsDev_WFvalue : ∀ (d : DeviceTree) (s s2 : Netlist) (c : Bool),
    tickPinsDev s d = some (s2, c) → WFvalue s → WFvalue s2
  | .mk tid children, s, s2, c, h, hwf => by
    simp only [tickPinsDev] at h
    cases tid with
    | none =>
      simp only at h
      cases hF : tickPinsForest s children with
      | none => simp only [hF] at h; exact Option.noConfusion h
      | some sc2 =>
        simp only [hF] at h
        have h1 : sc2.1 = s2 := congrArg Prod.fst (Option.some_injective _ h)
        exact h1 ▸ tickPinsForest_WFvalue children s sc2.1 sc2.2 (by rw [hF]) hwf
    | some j =>
      simp only at h
      cases hT : s.transistorPinsTick j with
      | none => simp only [hT] at h; exact Option.noConfusion h
      | some sc1 =>
        simp only [hT] at h
        cases hF : tickPinsForest sc1.1 children with
        | none => simp only [hF] at h; exact Option.noConfusion h
        | some sc2 =>
          simp only [hF] at h
          have h1 : sc2.1 = s2 := congrArg Prod.fst (Option.some_injective _ h)
          exact h1 ▸ tickPinsForest_WFvalue children sc1.1 sc2.1 sc2.2 (by rw [hF])
            (transistorPinsTick_WFvalue (by rw [hT]) hwf)

theorem tickPinsForest_WFvalue : ∀ (ds : DeviceForest) (s s2 : Netlist) (c : Bool),
    tickPinsForest s ds = some (s2, c) → WFvalue s → WFvalue s2
  | .nil, s, s2, c, h, hwf => by
    simp only [tickPinsForest] at h
    have h1 : s = s2 := congrArg Prod.fst (Option.some_injective _ h)
    exact h1 ▸ hwf
  | .cons d ds, s, s2, c, h, hwf => by
    simp only [tickPinsForest] at h
    cases hD : tickPinsDev s d with
    | none => simp only [hD] at h; exact Option.noConfusion h
    | some sc1 =>
      simp only [hD] at h
      cases hF : tickPinsForest sc1.1 ds with
      | none => simp only [hF] at h; exact Option.noConfusion h
      | some sc2 =>
        simp only [hF] at h
        have h1 : sc2.1 = s2 := congrArg Prod.fst (Option.some_injective _ h)
        exact h1 ▸ tickPinsForest_WFvalue ds sc1.1 sc2.1 sc2.2 (by rw [hF])
          (tickPinsDev_WFvalue d s sc1.1 sc1.2 (by rw [hD]) hwf)

end

theorem tick_WFvalue {s s2 : Netlist} {d : DeviceTree} {c : Bool}
    (h : tick s d = some (s2, c)) (hwf : WFvalue s) : WFvalue s2 := by
  unfold tick at h
  cases hA : tickTransistorsDev s d with
  | none => simp only [hA] at h; exact Option.noConfusion h
  | some sc1 =>
    simp only [hA] at h
    cases hB : tickPinsDev sc1.1 d with
    | none => simp only [hB] at h; exact Option.noConfusion h
    | some sc2 =>
      simp only [hB] at h
      have h1 : sc2.1 = s2 := congrArg Prod.fst (Option.some_injective _ h)
      have hwf1 : WFvalue sc1.1 :=
        WFvalue_of_wires_eq (tickTransistorsDev_frameA d s sc1.1 sc1.2 (by rw [hA])).wires_eq hwf
      exact h1 ▸ tickPinsDev_WFvalue d sc1.1 sc2.1 sc2.2 (by rw [hB]) hwf1

theorem settle_WFvalue : ∀ (fuel : Nat) {s s2 : Netlist} {d : DeviceTree} {n : Nat},
    settle fuel s d = some (n, s2) → WFvalue s → WFvalue s2 := by
  intro fuel
  induction fuel with
  | zero => intro s s2 d n h _; exact Option.noConfusion h
  | succ fuel ih =>
    intro s s2 d n h hwf
    unfold settle at h
    cases hT : tick s d with
    | none => simp only [hT] at h; exact Option.noConfusion h
    | some sc =>
      simp only [hT] at h
      by_cases hc : sc.2
      · rw [if_pos hc] at h
        cases hS : settle fuel sc.1 d with
        | none => simp only [hS] at h; exact Option.noConfusion h
        | some ns =>
          simp only [hS] at h
          have h1 : ns.2 = s2 := congrArg Prod.snd (Option.some_injective _ h)
          exact h1 ▸ ih (by rw [hS]) (tick_WFvalue (by rw [hT]) hwf)
      · rw [if_neg hc] at h
        have h1 : sc.1 = s2 := congrArg Prod.snd (Option.some_injective _ h)
        exact h1 ▸ tick_WFvalue (by rw [hT]) hwf

theorem redirectPins_wires (target : Nat) : ∀ (l : List Nat) (s s1 : Netlist),
    s.redirectPins target l = some s1 → s1.wires = s.wires := by
  intro l
  induction l with
  | nil =>
    intro s s1 h
    rw [← Option.some_injective _ h]
  | cons pid rest ih =>
    intro s s1 h
    unfold Netlist.redirectPins at h
    cases hp : s.pins[pid]? with
    | none => simp only [hp] at h; exact Option.noConfusion h
    | some p =>
      simp only [hp] at h
      exact (ih _ _ h).trans rfl

theorem wireConnect_WFvalue {s s2 : Netlist} {w1 w2 : Nat}
    (h : s.wireConnect w1 w2 = some s2) (hwf : WFvalue s) : WFvalue s2 := by
  unfold Netlist.wireConnect at h
  by_cases he : w1 = w2
  · rw [if_pos he] at h
    exact (Option.some_injective _ h) ▸ hwf
  · rw [if_neg he] at h
    cases hw2 : s.wires[w2]? with
    | none => simp only [hw2] at h; exact Option.noConfusion h
    | some ow =>
      cases ow with
      | none => simp only [hw2] at h; exact Option.noConfusion h
      | some wire2 =>
        simp only [hw2] at h
        cases hr : s.redirectPins w1 wire2.pins with
        | none => simp only [hr] at h; exact Option.noConfusion h
        | some s1 =>
          simp only [hr] at h
          cases hw1 : s1.wires[w1]? with
          | none => simp only [hw1] at h; exact Option.noConfusion h
          | some ow1 =>
            cases ow1 with
            | none => simp only [hw1] at h; exact Option.noConfusion h
            | some wire1 =>
              simp only [hw1] at h
              intro wid w hw
              rw [← Option.some_injective _ h] at hw
              have hw' : ((s1.wires.set w1 _).set w2 none)[wid]? = some (some w) := hw
              by_cases h2 : w2 = wid
              · subst h2
                rw [List.getElem?_set_self (by
                  rw [List.length_set, redirectPins_wires w1 wire2.pins s s1 hr]
                  exact Netlist.mem_wires_lt hw2)] at hw'
                exact Option.noConfusion (Option.some_injective _ hw')
              · rw [List.getElem?_set_ne h2] at hw'
                by_cases h1 : w1 = wid
                · subst h1
                  rw [List.getElem?_set_self (Netlist.mem_wires_lt hw1)] at hw'
                  rw [← Option.some_injective _ (Option.some_injective _ hw')]
                  rfl
                · rw [List.getElem?_set_ne h1, redirectPins_wires w1 wire2.pins s s1 hr] at hw'
                  exact hwf wid w hw'


theorem pinConnect_WFvalue {s s2 : Netlist} {p q : Nat}
    (h : s.pinConnect p q = some s2) (hwf : WFvalue s) : WFvalue s2 := by
  unfold Netlist.pinConnect at h
  cases hp : s.pins[p]? with
  | none => simp only [hp] at h; exact Option.noConfusion h
  | some qp =>
    cases hq : s.pins[q]? with
    | none => simp only [hp, hq] at h; exact Option.noConfusion h
    | some qq =>
      simp only [hp, hq] at h
      exact wireConnect_WFvalue h hwf

theorem newPin_WFvalue {s s2 : Netlist} {dv : DriveValue} {pid : Nat}
    (h : s.newPin dv = some (s2, pid)) (hwf : WFvalue s) : WFvalue s2 := by
  unfold Netlist.newPin at h
  cases hw : Wire.new.set_initial_pin s.pins.length dv with
  | none => simp only [hw] at h; exact Option.noConfusion h
  | some w =>
    simp only [hw] at h
    injection h with h'
    injection h' with hA hB
    subst hA
    intro wid w2 hw2
    have hw2' : (s.wires ++ [some w])[wid]? = some (some w2) := hw2
    by_cases hlt : wid < s.wires.length
    · rw [List.getElem?_append_left hlt] at hw2'
      exact hwf wid w2 hw2'
    · rw [List.getElem?_append_right (Nat.le_of_not_lt hlt)] at hw2'
      cases hd : wid - s.wires.length with
      | zero =>
        rw [hd] at hw2'
        obtain rfl : w = w2 := Option.some_injective _ (Option.some_injective _ hw2')
        unfold Wire.set_initial_pin at hw
        simp only [Wire.new, List.isEmpty_nil, if_true] at hw
        cases hu : DriveValueAccumulator.new.update DriveValue.HighImpedance dv with
        | none => simp only [hu] at hw; exact Option.noConfusion hw
        | some av =>
          simp only [hu] at hw
          rw [← Option.some_injective _ hw]
          exact update_snd hu
      | succ k =>
        rw [hd] at hw2'
        simp at hw2'

/-- C3: the cached LogicValue of every live wire equals the resolved
value of its accumulator after every public operation: pin construction,
Pin::connect (wire merge included), Pin::tick, and the whole tick; in
particular after settle every pin read returns the resolved value of the
accumulator of the wire of that pin. -/
theorem c3_wire_value_invariant :
    (∀ (s : Netlist) (dv : DriveValue) (s2 : Netlist) (pid : Nat),
      s.newPin dv = some (s2, pid) → WFvalue s → WFvalue s2) ∧
    (∀ (s : Netlist) (p q : Nat) (s2 : Netlist),
      s.pinConnect p q = some s2 → WFvalue s → WFvalue s2) ∧
    (∀ (s : Netlist) (i : Nat) (s2 : Netlist) (c : Bool),
      s.pinTick i = some (s2, c) → WFvalue s → WFvalue s2) ∧
    (∀ (s : Netlist) (d : DeviceTree) (s2 : Netlist) (c : Bool),
      tick s d = some (s2, c) → WFvalue s → WFvalue s2) ∧
    (∀ (fuel : Nat) (s : Netlist) (d : DeviceTree) (n : Nat) (s2 : Netlist),
      settle fuel s d = some (n, s2) → WFvalue s →
      ∀ (i : Nat) (p : Pin) (w : Wire), s2.pins[i]? = some p →
        s2.wires[p.wire]? = some (some w) →
        s2.readPin i = some w.drive_value_accumulator.get_value) :=
  ⟨fun _ _ _ _ h hwf => newPin_WFvalue h hwf,
   fun _ _ _ _ h hwf => pinConnect_WFvalue h hwf,
   fun _ _ _ _ h hwf => pinTick_WFvalue h hwf,
   fun _ _ _ _ h hwf => tick_WFvalue h hwf,
   fun fuel _ _ _ _ h hwf i p w hp hw => by
     have hwf2 := settle_WFvalue fuel h hwf
     simp only [Netlist.readPin, hp, hw, hwf2 p.wire w hw]⟩

/-- Witness for C3 on the concrete one-transistor netlist: settle
finishes in zero ticks and pin reads report resolved accumulator
values. -/
theorem c3_wire_value_invariant_witness :
    (sampleNmos.setPin 2 ⟨.Strong false, none, 2⟩).readPin 0 =
      some ((⟨0, 1, 0, 0, 0⟩ : DriveValueAccumulator).get_value) := by
  have h := c3_wire_value_invariant.2.2.2.2 1 sampleNmos sampleNmosTree 0
    (sampleNmos.setPin 2 ⟨.Strong false, none, 2⟩) (by rfl)
    (by
      intro wid w hw
      match wid with
      | 0 => rw [← Option.some_injective _ (Option.some_injective _ hw)]; rfl
      | 1 => rw [← Option.some_injective _ (Option.some_injective _ hw)]; rfl
      | 2 => rw [← Option.some_injective _ (Option.some_injective _ hw)]; rfl
      | n + 3 => simp [sampleNmos] at hw)
    0 ⟨.Strong false, none, 0⟩ ⟨.Driven false, [0], ⟨0, 1, 0, 0, 0⟩⟩ rfl rfl
  exact h

/-! Behaviour of trees containing no transistor. -/

mutual

theorem tickTransistorsDev_noT : ∀ (d : DeviceTree) (s : Netlist),
    noTransistorsDev d = true → tickTransistorsDev s d = some (s, false)
  | .mk tid children, s, h => by
    simp only [noTransistorsDev, Bool.and_eq_true, Option.isNone_iff_eq_none] at h
    obtain ⟨h1, h2⟩ := h
    subst h1
    simp only [tickTransistorsDev, tickTransistorsForest_noT children s h2, Bool.or_self]

theorem tickTransistorsForest_noT : ∀ (ds : DeviceForest) (s : Netlist),
    noTransistorsForest ds = true → tickTransistorsForest s ds = some (s, false)
  | .nil, s, _ => rfl
  | .cons d ds, s, h => by
    simp only [noTransistorsForest, Bool.and_eq_true] at h
    simp only [tickTransistorsForest, tickTransistorsDev_noT d s h.1,
      tickTransistorsForest_noT ds s h.2, Bool.or_self]

end

mutual

theorem tickPinsDev_noT : ∀ (d : DeviceTree) (s : Netlist),
    noTransistorsDev d = true → tickPinsDev s d = some (s, false)
  | .mk tid children, s, h => by
    simp only [noTransistorsDev, Bool.and_eq_true, Option.isNone_iff_eq_none] at h
    obtain ⟨h1, h2⟩ := h
    subst h1
    simp only [tickPinsDev, tickPinsForest_noT children s h2, Bool.or_self]

theorem tickPinsForest_noT : ∀ (ds : DeviceForest) (s : Netlist),
    noTransistorsForest ds = true → tickPinsForest s ds = some (s, false)
  | .nil, s, _ => rfl
  | .cons d ds, s, h => by
    simp only [noTransistorsForest, Bool.and_eq_true] at h
    simp only [tickPinsForest, tickPinsDev_noT d s h.1, tickPinsForest_noT ds s h.2, Bool.or_self]

end

/-- C10: on a device tree containing no transistor anywhere (for example
only constants and test pins), tick returns false and leaves the whole
netlist state, in particular every pin drive, pending slot and wire
value, unchanged; settle therefore returns 0 ticks. -/
theorem c10_no_transistor_fixed (s : Netlist) (d : DeviceTree) (fuel : Nat)
    (h : noTransistorsDev d = true) :
    tick s d = some (s, false) ∧ settle (fuel + 1) s d = some (0, s) := by
  have htick : tick s d = some (s, false) := by
    simp only [tick, tickTransistorsDev_noT d s h, tickPinsDev_noT d s h, Bool.or_self]
  refine ⟨htick, ?_⟩
  simp only [settle, htick, Bool.false_eq_true, if_false]

/-- A netlist with one constant-style pin and a tree of two transistor-free
devices. -/
def sampleConst : Netlist :=
  { pins := [⟨.Strong true, none, 0⟩],
    wires := [some ⟨.Driven true, [0], ⟨1, 0, 0, 0, 0⟩⟩],
    transistors := [] }

/-- Witness for C10 on a concrete transistor-free tree. -/
theorem c10_no_transistor_fixed_witness :
    tick sampleConst (.mk none (.cons (.mk none .nil) .nil)) = some (sampleConst, false) ∧
    settle 3 sampleConst (.mk none (.cons (.mk none .nil) .nil)) = some (0, sampleConst) :=
  c10_no_transistor_fixed sampleConst (.mk none (.cons (.mk none .nil) .nil)) 2 (by decide)

/-! Witness material for the connect ordering claim. -/

/-- Two pins on two separate wires. -/
def sampleTwo : Netlist :=
  { pins := [⟨.Strong true, none, 0⟩, ⟨.Weak false, none, 1⟩],
    wires := [some ⟨.Driven true, [0], ⟨1, 0, 0, 0, 0⟩⟩,
              some ⟨.Driven false, [1], ⟨0, 0, 0, 1, 0⟩⟩],
    transistors := [] }

/-- The state after connecting the two pins of sampleTwo: pin 1 is
redirected onto wire 0, which now lists both pins and carries the merged
accumulator; wire 1 is dropped. -/
def sampleTwoConnected : Netlist :=
  { pins := [⟨.Strong true, none, 0⟩, ⟨.Weak false, none, 0⟩],
    wires := [some ⟨.Driven true, [0, 1], ⟨1, 0, 0, 1, 0⟩⟩, none],
    transistors := [] }

theorem sampleTwo_WF : WF sampleTwo := by
  constructor
  · intro i p h
    match i with
    | 0 =>
      obtain rfl : (⟨.Strong true, none, 0⟩ : Pin) = p := by injection h
      exact ⟨_, rfl, by decide⟩
    | 1 =>
      obtain rfl : (⟨.Weak false, none, 1⟩ : Pin) = p := by injection h
      exact ⟨_, rfl, by decide⟩
    | n + 2 => simp [sampleTwo] at h
  · intro wid w h i hi
    match wid with
    | 0 =>
      obtain rfl : (⟨.Driven true, [0], ⟨1, 0, 0, 0, 0⟩⟩ : Wire) = w := by
        injection Option.some_injective _ h
      obtain rfl : i = 0 := by simpa using hi
      exact ⟨_, rfl, rfl⟩
    | 1 =>
      obtain rfl : (⟨.Driven false, [1], ⟨0, 0, 0, 1, 0⟩⟩ : Wire) = w := by
        injection Option.some_injective _ h
      obtain rfl : i = 1 := by simpa using hi
      exact ⟨_, rfl, rfl⟩
    | n + 2 => simp [sampleTwo] at h

/-- Witness for C5 on the concrete two-pin netlist: after connect both
pins report the ordered list of the pins of the first wire followed by
the pins of the second wire. -/
theorem c5_connect_ordered_pins_witness :
    sampleTwoConnected.getConnectedPins 0 = some [0, 1] ∧
    sampleTwoConnected.getConnectedPins 1 = some [0, 1] := by
  obtain ⟨l, h0, h1, -, -, -, hcase⟩ :=
    c5_connect_ordered_pins sampleTwo sampleTwoConnected 0 1 ⟨.Strong true, none, 0⟩
      ⟨.Weak false, none, 1⟩ sampleTwo_WF rfl rfl (by rfl)
  rcases hcase with ⟨habs, -⟩ | ⟨-, w1, w2, e1, e2, rfl⟩
  · exact absurd habs (by decide)
  · obtain rfl : (⟨.Driven true, [0], ⟨1, 0, 0, 0, 0⟩⟩ : Wire) = w1 := by
      injection Option.some_injective _ e1
    obtain rfl : (⟨.Driven false, [1], ⟨0, 0, 0, 1, 0⟩⟩ : Wire) = w2 := by
      injection Option.some_injective _ e2
    exact ⟨h0, h1⟩

/-! The transistor decision table. -/

/-- Modelled from the wording of the claim: the pending drain value of
one transistor step as a function of activation, hysteresis and the two
readings; none when the gate is ambiguous and hysteresis is only being
engaged, so that no pending drive is recorded. -/
def transistorSpecNext (activation hysteresis : Bool) (g srcV : LogicValue) :
    Option LogicValue :=
  match g with
  | .Driven b => if b = activation then some srcV else some .HighImpedance
  | _ => if hysteresis then some .Error else none

/-- C2: one transistor step follows the decision table: a gate driven at
the activation level clears hysteresis and forwards the source reading
to the pending drain drive (through the LogicValue to DriveValue
conversion); a gate driven at the opposite level clears hysteresis and
makes the pending drain drive HighImpedance; an ambiguous gate with
clear hysteresis sets the flag and reports a change without recording
any pending drive; an ambiguous gate with the flag already set makes the
pending drive Error.  The reported flag is true exactly when the
computed next value differs from the LogicValue of the current drain
drive, or when hysteresis was just engaged. -/
theorem c2_transistor_step (s : Netlist) (j : Nat) (t : Transistor) (dp : Pin)
    (g srcV : LogicValue)
    (ht : s.transistors[j]? = some t)
    (hdp : s.pins[t.drain]? = some dp)
    (hnd : dp.next_drive = none)
    (hg : s.readPin t.gate = some g)
    (hs : s.readPin t.source = some srcV) :
    (∀ b, g = .Driven b → b = t.activation →
      s.transistorTick j = some ((s.setTransistor j { t with error_hysteresis := false }).setPin
        t.drain { dp with next_drive := some srcV.toDriveValue },
        dp.current_drive.toLogicValue != srcV)) ∧
    (∀ b, g = .Driven b → b ≠ t.activation →
      s.transistorTick j = some ((s.setTransistor j { t with error_hysteresis := false }).setPin
        t.drain { dp with next_drive := some DriveValue.HighImpedance },
        dp.current_drive.toLogicValue != LogicValue.HighImpedance)) ∧
    ((g = .HighImpedance ∨ g = .Error) → t.error_hysteresis = false →
      s.transistorTick j = some (s.setTransistor j { t with error_hysteresis := true }, true)) ∧
    ((g = .HighImpedance ∨ g = .Error) → t.error_hysteresis = true →
      s.transistorTick j = some (s.setPin t.drain { dp with next_drive := some DriveValue.Error },
        dp.current_drive.toLogicValue != LogicValue.Error)) ∧
    (∀ (s2 : Netlist) (r : Bool), s.transistorTick j = some (s2, r) →
      (r = true ↔
        (∃ nv, transistorSpecNext t.activation t.error_hysteresis g srcV = some nv ∧
          nv ≠ dp.current_drive.toLogicValue) ∨
        transistorSpecNext t.activation t.error_hysteresis g srcV = none)) := by
  have hs1 : (s.setTransistor j { t with error_hysteresis := false }).readPin t.source =
      some srcV := hs
  have hsd : ∀ (v : DriveValue),
      (s.setTransistor j { t with error_hysteresis := false }).set_drive t.drain v =
      some ((s.setTransistor j { t with error_hysteresis := false }).setPin t.drain
        { dp with next_drive := some v }) := by
    intro v
    unfold Netlist.set_drive
    have hdp2 : (s.setTransistor j { t with error_hysteresis := false }).pins[t.drain]? =
        some dp := hdp
    simp only [hdp2, hnd]
  have hsd0 : ∀ (v : DriveValue),
      s.set_drive t.drain v = some (s.setPin t.drain { dp with next_drive := some v }) := by
    intro v
    unfold Netlist.set_drive
    simp only [hdp, hnd]
  refine ⟨?_, ?_, ?_, ?_, ?_⟩
  · rintro b rfl hb
    simp only [Netlist.transistorTick, ht, hdp, hg, hs1, if_pos hb, hsd srcV.toDriveValue]
  · rintro b rfl hb
    simp only [Netlist.transistorTick, ht, hdp, hg, if_neg hb, hsd LogicValue.HighImpedance.toDriveValue]
    rfl
  · rintro (rfl | rfl) hh <;>
      simp only [Netlist.transistorTick, ht, hdp, hg, hh, Bool.not_false, if_true]
  · rintro (rfl | rfl) hh <;>
      simp only [Netlist.transistorTick, ht, hdp, hg, hh, Bool.not_true, Bool.false_eq_true,
        if_false, hsd0 LogicValue.Error.toDriveValue] <;> rfl
  · intro s2 r hrun
    cases g with
    | Driven b =>
      by_cases hb : b = t.activation
      · rw [Netlist.transistorTick] at hrun
        simp only [ht, hdp, hg, hs1, if_pos hb, hsd srcV.toDriveValue] at hrun
        have hr : (dp.current_drive.toLogicValue != srcV) = r :=
          congrArg Prod.snd (Option.some_injective _ hrun)
        simp only [transistorSpecNext, if_pos hb]
        constructor
        · intro h1
          rw [← hr] at h1
          exact Or.inl ⟨srcV, rfl, fun he => by simp [he.symm] at h1⟩
        · rintro (⟨nv, hnv, hne⟩ | hnone)
          · obtain rfl : srcV = nv := by injection hnv
            rw [← hr, bne_iff_ne]
            exact fun he => hne he.symm
          · exact Option.noConfusion hnone
      · rw [Netlist.transistorTick] at hrun
        simp only [ht, hdp, hg, if_neg hb, hsd LogicValue.HighImpedance.toDriveValue] at hrun
        have hr : (dp.current_drive.toLogicValue != LogicValue.HighImpedance) = r :=
          congrArg Prod.snd (Option.some_injective _ hrun)
        simp only [transistorSpecNext, if_neg hb]
        constructor
        · intro h1
          rw [← hr] at h1
          exact Or.inl ⟨.HighImpedance, rfl, fun he => by simp [he.symm] at h1⟩
        · rintro (⟨nv, hnv, hne⟩ | hnone)
          · obtain rfl : LogicValue.HighImpedance = nv := by injection hnv
            rw [← hr, bne_iff_ne]
            exact fun he => hne he.symm
          · exact Option.noConfusion hnone
    | HighImpedance =>
      cases hh : t.error_hysteresis with
      | false =>
        rw [Netlist.transistorTick] at hrun
        simp only [ht, hdp, hg, hh, Bool.not_false, if_true] at hrun
        have hr : true = r := congrArg Prod.snd (Option.some_injective _ hrun)
        simp only [transistorSpecNext, hh, Bool.false_eq_true, if_false]
        exact ⟨fun _ => Or.inr (by trivial), fun _ => hr.symm ▸ rfl⟩
      | true =>
        rw [Netlist.transistorTick] at hrun
        simp only [ht, hdp, hg, hh, Bool.not_true, Bool.false_eq_true, if_false,
          hsd0 LogicValue.Error.toDriveValue] at hrun
        have hr : (dp.current_drive.toLogicValue != LogicValue.Error) = r :=
          congrArg Prod.snd (Option.some_injective _ hrun)
        simp only [transistorSpecNext, hh, if_true]
        constructor
        · intro h1
          rw [← hr] at h1
          exact Or.inl ⟨.Error, rfl, fun he => by simp [he.symm] at h1⟩
        · rintro (⟨nv, hnv, hne⟩ | hnone)
          · obtain rfl : LogicValue.Error = nv := by injection hnv
            rw [← hr, bne_iff_ne]
            exact fun he => hne he.symm
          · exact Option.noConfusion hnone
    | Error =>
      cases hh : t.error_hysteresis with
      | false =>
        rw [Netlist.transistorTick] at hrun
        simp only [ht, hdp, hg, hh, Bool.not_false, if_true] at hrun
        have hr : true = r := congrArg Prod.snd (Option.some_injective _ hrun)
        simp only [transistorSpecNext, hh, Bool.false_eq_true, if_false]
        exact ⟨fun _ => Or.inr (by trivial), fun _ => hr.symm ▸ rfl⟩
      | true =>
        rw [Netlist.transistorTick] at hrun
        simp only [ht, hdp, hg, hh, Bool.not_true, Bool.false_eq_true, if_false,
          hsd0 LogicValue.Error.toDriveValue] at hrun
        have hr : (dp.current_drive.toLogicValue != LogicValue.Error) = r :=
          congrArg Prod.snd (Option.some_injective _ hrun)
        simp only [transistorSpecNext, hh, if_true]
        constructor
        · intro h1
          rw [← hr] at h1
          exact Or.inl ⟨.Error, rfl, fun he => by simp [he.symm] at h1⟩
        · rintro (⟨nv, hnv, hne⟩ | hnone)
          · obtain rfl : LogicValue.Error = nv := by injection hnv
            rw [← hr, bne_iff_ne]
            exact fun he => hne he.symm
          · exact Option.noConfusion hnone

/-- Witness for C2 on the concrete NMOS netlist: gate Driven true at
activation level forwards the source reading Driven false as pending
drive Strong false, reporting no change since the drain already drives
Strong false. -/
theorem c2_transistor_step_witness :
    sampleNmos.transistorTick 0 = some ((sampleNmos.setTransistor 0
      ⟨0, 1, 2, true, false⟩).setPin 2 ⟨.Strong false, some (.Strong false), 2⟩, false) := by
  have h := (c2_transistor_step sampleNmos 0 ⟨0, 1, 2, true, false⟩ ⟨.Strong false, none, 2⟩
    (.Driven true) (.Driven false) rfl rfl rfl rfl rfl).1 true rfl rfl
  exact h

/-! Infrastructure for the settle fixed-point claim. -/

theorem set_getElem?_eq {α : Type _} {l : List α} {j : Nat} {a : α} (h : l[j]? = some a) :
    l.set j a = l := by
  apply List.ext_getElem?
  intro i
  by_cases hij : j = i
  · subst hij
    rw [List.getElem?_set_self (List.getElem?_eq_some.1 h).1, h]
  · rw [List.getElem?_set_ne hij]

theorem pin_clear_eta {p : Pin} (h : p.next_drive = none) :
    { p with next_drive := none } = p := by
  obtain ⟨c, n, w⟩ := p
  cases h
  rfl

theorem transistor_hyst_eta {t : Transistor} {b : Bool} (h : t.error_hysteresis = b) :
    { t with error_hysteresis := b } = t := by
  obtain ⟨ts, tg, td, ta, th⟩ := t
  cases h
  rfl

theorem bne_false_eq {α : Type _} [DecidableEq α] {a b : α} (h : (a != b) = false) : a = b := by
  simpa using h

theorem toLogicValue_eq_error : ∀ {d : DriveValue}, d.toLogicValue = .Error → d = .Error
  | .Strong _, h => LogicValue.noConfusion h
  | .Weak _, h => LogicValue.noConfusion h
  | .HighImpedance, h => LogicValue.noConfusion h
  | .Error, _ => rfl

theorem toDriveValue_toLogicValue : ∀ (lv : LogicValue), lv.toDriveValue.toLogicValue = lv
  | .Driven _ => rfl
  | .HighImpedance => rfl
  | .Error => rfl

/-- The hysteresis flag value a transistor step leaves behind, as a
function of the gate reading. -/
def hystB : LogicValue → Bool
  | .Driven _ => false
  | _ => true

/-- The next drain LogicValue a transistor computes from the frozen
reads, with Error standing for the ambiguous-gate outcome once
hysteresis is engaged. -/
def transistorNextLV (s : Netlist) (t : Transistor) : Option LogicValue :=
  match s.readPin t.gate with
  | none => none
  | some (.Driven b) => if b = t.activation then s.readPin t.source else some .HighImpedance
  | some .HighImpedance => some .Error
  | some .Error => some .Error

theorem readPin_congr {s s2 : Netlist} (hw : s2.wires = s.wires)
    (hp : ∀ i : Nat, (s2.pins[i]?).map Pin.wire = (s.pins[i]?).map Pin.wire) (i : Nat) :
    s2.readPin i = s.readPin i := by
  have hwi := hp i
  cases hs : s.pins[i]? with
  | none =>
    rw [hs] at hwi
    have hs2 : s2.pins[i]? = none := by
      cases hs2 : s2.pins[i]? with
      | none => rfl
      | some p2 => rw [hs2] at hwi; simp at hwi
    simp only [Netlist.readPin, hs, hs2]
  | some p =>
    rw [hs] at hwi
    cases hs2 : s2.pins[i]? with
    | none => rw [hs2] at hwi; simp at hwi
    | some p2 =>
      rw [hs2] at hwi
      simp only [Option.map_some'] at hwi
      have hpw : p2.wire = p.wire := by injection hwi
      simp only [Netlist.readPin, hs, hs2, hpw, hw]

theorem transistorNextLV_congr {s s2 : Netlist} (hr : ∀ i : Nat, s2.readPin i = s.readPin i)
    {t t2 : Transistor} (hg : t2.gate = t.gate) (hsr : t2.source = t.source)
    (ha : t2.activation = t.activation) :
    transistorNextLV s2 t2 = transistorNextLV s t := by
  unfold transistorNextLV
  rw [hg, hsr, ha, hr t.gate, hr t.source]

theorem shape_drain {t t2 : Transistor}
    (h : (t2.source, t2.gate, t2.drain, t2.activation) =
      (t.source, t.gate, t.drain, t.activation)) :
    t2.drain = t.drain := congrArg (fun q => q.2.2.1) h

/-- Characterization of a transistor step that reports no change: its
reads succeed, the computed next value agrees with the LogicValue of the
current drain drive, the drain pending slot was free and now holds the
conversion of the computed value, and the hysteresis flag becomes false
for a driven gate and stays true for an ambiguous one (an ambiguous gate
with clear hysteresis would have reported a change). -/
theorem transistorTick_false {u u1 : Netlist} {j : Nat}
    (h : u.transistorTick j = some (u1, false)) :
    ∃ t dp g nv,
      u.transistors[j]? = some t ∧ u.pins[t.drain]? = some dp ∧ dp.next_drive = none ∧
      u.readPin t.gate = some g ∧ transistorNextLV u t = some nv ∧
      dp.current_drive.toLogicValue = nv ∧
      ((∃ b, g = .Driven b) ∨ (t.error_hysteresis = true ∧ dp.current_drive = .Error)) ∧
      u1.wires = u.wires ∧
      u1.pins = u.pins.set t.drain { dp with next_drive := some nv.toDriveValue } ∧
      u1.transistors = u.transistors.set j { t with error_hysteresis := hystB g } := by
  unfold Netlist.transistorTick at h
  cases hT : u.transistors[j]? with
  | none => simp only [hT] at h; exact Option.noConfusion h
  | some t =>
    simp only [hT] at h
    cases hD : u.pins[t.drain]? with
    | none => simp only [hD] at h; exact Option.noConfusion h
    | some dp =>
      simp only [hD] at h
      cases hG : u.readPin t.gate with
      | none => simp only [hG] at h; exact Option.noConfusion h
      | some g =>
        simp only [hG] at h
        cases g with
        | Driven drive =>
          cases hN : (if drive = t.activation
              then (u.setTransistor j { t with error_hysteresis := false }).readPin t.source
              else some LogicValue.HighImpedance) with
          | none => simp only [hN] at h; exact Option.noConfusion h
          | some next =>
            simp only [hN] at h
            cases hSD : (u.setTransistor j { t with error_hysteresis := false }).set_drive
                t.drain next.toDriveValue with
            | none => simp only [hSD] at h; exact Option.noConfusion h
            | some s3 =>
              simp only [hSD] at h
              injection h with h'
              injection h' with hA hB
              subst hA
              obtain ⟨p, hp, hpn, h3⟩ := set_drive_spec hSD
              have hp' : u.pins[t.drain]? = some p := hp
              rw [hD] at hp'
              obtain rfl : dp = p := Option.some_injective _ hp'
              have hcn : dp.current_drive.toLogicValue = next := bne_false_eq hB
              refine ⟨t, dp, .Driven drive, next, rfl, hD, hpn, hG, ?_, hcn,
                Or.inl ⟨drive, rfl⟩, ?_, ?_, ?_⟩
              · unfold transistorNextLV
                rw [hG]
                exact hN
              · rw [h3]; rfl
              · rw [h3]; rfl
              · rw [h3]; rfl
        | HighImpedance =>
          cases hh : t.error_hysteresis with
          | false =>
            simp only [hh, Bool.not_false, if_true] at h
            injection h with h'
            injection h' with hA hB
            exact Bool.noConfusion hB
          | true =>
            simp only [hh, Bool.not_true, Bool.false_eq_true, if_false] at h
            cases hSD : u.set_drive t.drain LogicValue.Error.toDriveValue with
            | none => simp only [hSD] at h; exact Option.noConfusion h
            | some s3 =>
              simp only [hSD] at h
              injection h with h'
              injection h' with hA hB
              subst hA
              obtain ⟨p, hp, hpn, h3⟩ := set_drive_spec hSD
              rw [hD] at hp
              obtain rfl : dp = p := Option.some_injective _ hp
              have hcn : dp.current_drive.toLogicValue = .Error := bne_false_eq hB
              refine ⟨t, dp, .HighImpedance, .Error, rfl, hD, hpn, hG, ?_, hcn,
                Or.inr ⟨hh, toLogicValue_eq_error hcn⟩, ?_, ?_, ?_⟩
              · unfold transistorNextLV
                rw [hG]
              · rw [h3]; rfl
              · rw [h3]; rfl
              · rw [h3]
                show u.transistors = _
                rw [show hystB LogicValue.HighImpedance = true from rfl,
                  transistor_hyst_eta hh, set_getElem?_eq hT]
        | Error =>
          cases hh : t.error_hysteresis with
          | false =>
            simp only [hh, Bool.not_false, if_true] at h
            injection h with h'
            injection h' with hA hB
            exact Bool.noConfusion hB
          | true =>
            simp only [hh, Bool.not_true, Bool.false_eq_true, if_false] at h
            cases hSD : u.set_drive t.drain LogicValue.Error.toDriveValue with
            | none => simp only [hSD] at h; exact Option.noConfusion h
            | some s3 =>
              simp only [hSD] at h
              injection h with h'
              injection h' with hA hB
              subst hA
              obtain ⟨p, hp, hpn, h3⟩ := set_drive_spec hSD
              rw [hD] at hp
              obtain rfl : dp = p := Option.some_injective _ hp
              have hcn : dp.current_drive.toLogicValue = .Error := bne_false_eq hB
              refine ⟨t, dp, .Error, .Error, rfl, hD, hpn, hG, ?_, hcn,
                Or.inr ⟨hh, toLogicValue_eq_error hcn⟩, ?_, ?_, ?_⟩
              · unfold transistorNextLV
                rw [hG]
              · rw [h3]; rfl
              · rw [h3]; rfl
              · rw [h3]
                show u.transistors = _
                rw [show hystB LogicValue.Error = true from rfl,
                  transistor_hyst_eta hh, set_getElem?_eq hT]

/-- Two netlists with equal components are equal. -/
theorem Netlist.ext_of {a b : Netlist} (hp : a.pins = b.pins) (hw : a.wires = b.wires)
    (ht : a.transistors = b.transistors) : a = b := by
  cases a
  cases b
  cases hp
  cases hw
  cases ht
  rfl

/-- The drain pins of the listed transistors, in order. -/
def tidDrains (s : Netlist) (tids : List Nat) : List Nat :=
  tids.filterMap fun j => (s.transistors[j]?).map fun t => t.drain

theorem tidDrains_congr {s s2 : Netlist}
    (hkeep : ∀ j : Nat, (s2.transistors[j]?).map
        (fun t => (t.source, t.gate, t.drain, t.activation)) =
      (s.transistors[j]?).map (fun t => (t.source, t.gate, t.drain, t.activation)))
    (tids : List Nat) : tidDrains s2 tids = tidDrains s tids := by
  induction tids with
  | nil => rfl
  | cons j rest ih =>
    unfold tidDrains at ih ⊢
    rw [List.filterMap_cons, List.filterMap_cons, ih]
    have hj := hkeep j
    cases h1 : s.transistors[j]? with
    | none =>
      rw [h1] at hj
      have h2 : s2.transistors[j]? = none := by
        cases h2 : s2.transistors[j]? with
        | none => rfl
        | some t2 => rw [h2] at hj; simp at hj
      rw [h2]
    | some t =>
      rw [h1] at hj
      cases h2 : s2.transistors[j]? with
      | none => rw [h2] at hj; simp at hj
      | some t2 =>
        rw [h2] at hj
        simp only [Option.map_some'] at hj
        injection hj with hj2
        simp only [Option.map_some', shape_drain hj2]

theorem mem_tidDrains {s : Netlist} {tids : List Nat} {i : Nat} (h : i ∈ tidDrains s tids) :
    ∃ j ∈ tids, ∃ t, s.transistors[j]? = some t ∧ t.drain = i := by
  obtain ⟨j, hj, hf⟩ := List.mem_filterMap.1 h
  cases ht : s.transistors[j]? with
  | none => rw [ht] at hf; simp at hf
  | some t =>
    rw [ht] at hf
    simp only [Option.map_some'] at hf
    exact ⟨j, hj, t, ht, by injection hf⟩

/-- Pending slots evolve monotonically during Phase A: a slot is either
untouched or filled from empty. -/
def SlotsMono (u u2 : Netlist) : Prop :=
  ∀ i : Nat, u2.pins[i]? = u.pins[i]? ∨
    ∃ p v, u.pins[i]? = some p ∧ p.next_drive = none ∧
      u2.pins[i]? = some { p with next_drive := some v }

theorem slotsMono_refl (u : Netlist) : SlotsMono u u := fun _ => Or.inl rfl

theorem slotsMono_trans {u um u2 : Netlist} (h1 : SlotsMono u um) (h2 : SlotsMono um u2) :
    SlotsMono u u2 := by
  intro i
  rcases h2 i with h2i | ⟨p, v, hp, hn, hset⟩
  · rw [h2i]
    exact h1 i
  · rcases h1 i with h1i | ⟨p0, v0, hp0, hn0, hset0⟩
    · rw [h1i] at hp
      exact Or.inr ⟨p, v, hp, hn, hset⟩
    · rw [hset0] at hp
      obtain rfl : { p0 with next_drive := some v0 } = p := Option.some_injective _ hp
      exact Option.noConfusion hn

/-- Everything a no-change Phase A run over a set of transistors
guarantees: the frame, slot monotonicity, untouched records outside the
set, the per-transistor facts inside the set, and distinctness of the
written drains. -/
structure PhaseAOut (u u2 : Netlist) (tids : List Nat) : Prop where
  frame : FrameA u u2
  slots : SlotsMono u u2
  keep : ∀ j : Nat, j ∉ tids → u2.transistors[j]? = u.transistors[j]?
  facts : ∀ j ∈ tids, ∃ t dp g nv,
    u.transistors[j]? = some t ∧ u.pins[t.drain]? = some dp ∧ dp.next_drive = none ∧
    u.readPin t.gate = some g ∧ transistorNextLV u t = some nv ∧
    dp.current_drive.toLogicValue = nv ∧
    ((∃ b, g = .Driven b) ∨ (t.error_hysteresis = true ∧ dp.current_drive = .Error)) ∧
    u2.transistors[j]? = some { t with error_hysteresis := hystB g } ∧
    u2.pins[t.drain]? = some { dp with next_drive := some nv.toDriveValue }
  nodup : (tidDrains u tids).Nodup

theorem phaseA_nil (u : Netlist) : PhaseAOut u u [] :=
  ⟨frameA_refl u, slotsMono_refl u, fun _ _ => rfl, fun j hj => absurd hj (List.not_mem_nil j),
   List.nodup_nil⟩

theorem phaseA_single {u u1 : Netlist} {j : Nat}
    (h : u.transistorTick j = some (u1, false)) : PhaseAOut u u1 [j] := by
  obtain ⟨t, dp, g, nv, ht, hD, hnd, hgr, hnext, hcur, hcase, hw, hpins, htrans⟩ :=
    transistorTick_false h
  have hD2 : (u.setTransistor j { t with error_hysteresis := hystB g }).pins[t.drain]? =
      some dp := hD
  have hu1 : u1 = (u.setTransistor j { t with error_hysteresis := hystB g }).setPin t.drain
      { dp with next_drive := some nv.toDriveValue } :=
    Netlist.ext_of hpins hw htrans
  have hdlt : t.drain < u.pins.length := Netlist.mem_pins_lt hD
  have hjlt : j < u.transistors.length := (List.getElem?_eq_some.1 ht).1
  refine ⟨?_, ?_, ?_, ?_, ?_⟩
  · rw [hu1]
    exact frameA_trans (frameA_setTransistor ht _) (frameA_setPin_next hD2 _)
  · intro i
    by_cases hi : t.drain = i
    · subst hi
      rw [hpins, List.getElem?_set_self hdlt]
      exact Or.inr ⟨dp, nv.toDriveValue, hD, hnd, rfl⟩
    · rw [hpins, List.getElem?_set_ne hi]
      exact Or.inl rfl
  · intro j2 hj2
    have : j ≠ j2 := fun he => hj2 (he ▸ List.mem_singleton_self j)
    rw [htrans, List.getElem?_set_ne this]
  · intro j2 hj2
    obtain rfl : j2 = j := List.mem_singleton.1 hj2
    refine ⟨t, dp, g, nv, ht, hD, hnd, hgr, hnext, hcur, hcase, ?_, ?_⟩
    · rw [htrans, List.getElem?_set_self hjlt]
    · rw [hpins, List.getElem?_set_self hdlt]
  · simp only [tidDrains, List.filterMap_cons, ht, Option.map_some', List.filterMap_nil]
    exact List.nodup_singleton t.drain

theorem phaseA_compose {u um u2 : Netlist} {tids1 tids2 : List Nat}
    (H1 : PhaseAOut u um tids1) (H2 : PhaseAOut um u2 tids2) :
    PhaseAOut u u2 (tids1 ++ tids2) := by
  have hread : ∀ i : Nat, um.readPin i = u.readPin i := readPin_frameA H1.frame
  refine ⟨frameA_trans H1.frame H2.frame, slotsMono_trans H1.slots H2.slots, ?_, ?_, ?_⟩
  · intro j hj
    rw [List.mem_append] at hj
    push_neg at hj
    rw [H2.keep j hj.2, H1.keep j hj.1]
  · intro j hj
    rcases List.mem_append.1 hj with hj1 | hj2
    · obtain ⟨t, dp, g, nv, ht, hD, hnd, hgr, hnext, hcur, hcase, hT2, hD2⟩ := H1.facts j hj1
      refine ⟨t, dp, g, nv, ht, hD, hnd, hgr, hnext, hcur, hcase, ?_, ?_⟩
      · by_cases hmem : j ∈ tids2
        · obtain ⟨t', dp', g', nv', ht', hdp', hnd', -, -, -, -, -, -⟩ := H2.facts j hmem
          rw [hT2] at ht'
          obtain rfl : { t with error_hysteresis := hystB g } = t' :=
            Option.some_injective _ ht'
          have : um.pins[t.drain]? = some dp' := hdp'
          rw [hD2] at this
          obtain rfl : { dp with next_drive := some nv.toDriveValue } = dp' :=
            Option.some_injective _ this
          exact Option.noConfusion hnd'
        · rw [H2.keep j hmem, hT2]
      · rcases H2.slots t.drain with hs | ⟨p, v, hp, hn, hset⟩
        · rw [hs, hD2]
        · rw [hD2] at hp
          obtain rfl : { dp with next_drive := some nv.toDriveValue } = p :=
            Option.some_injective _ hp
          exact Option.noConfusion hn
    · obtain ⟨t', dp', g', nv', ht', hdp', hnd', hgr', hnext', hcur', hcase', hT2', hD2'⟩ :=
        H2.facts j hj2
      have hju : u.transistors[j]? = some t' := by
        by_cases hmem : j ∈ tids1
        · obtain ⟨t1, dp1, g1, nv1, ht1, hD1, hnd1, -, -, -, -, hT1, hD1'⟩ := H1.facts j hmem
          rw [hT1] at ht'
          obtain rfl : { t1 with error_hysteresis := hystB g1 } = t' :=
            Option.some_injective _ ht'
          have : um.pins[t1.drain]? = some dp' := hdp'
          rw [hD1'] at this
          obtain rfl : { dp1 with next_drive := some nv1.toDriveValue } = dp' :=
            Option.some_injective _ this
          exact Option.noConfusion hnd'
        · rw [← H1.keep j hmem, ht']
      have hdpu : u.pins[t'.drain]? = some dp' := by
        rcases H1.slots t'.drain with hs | ⟨p, v, hp, hn, hset⟩
        · rw [← hs, hdp']
        · rw [hset] at hdp'
          obtain rfl : { p with next_drive := some v } = dp' := Option.some_injective _ hdp'
          exact Option.noConfusion hnd'
      exact ⟨t', dp', g', nv', hju, hdpu, hnd', by rw [← hread t'.gate]; exact hgr',
        by rw [← transistorNextLV_congr hread rfl rfl rfl]; exact hnext',
        hcur', hcase', hT2', hD2'⟩
  · unfold tidDrains
    rw [List.filterMap_append]
    have hn2 : (tidDrains u tids2).Nodup := by
      rw [← tidDrains_congr H1.frame.trans_keep tids2]
      exact H2.nodup
    refine List.Nodup.append H1.nodup hn2 ?_
    intro i hi1 hi2
    obtain ⟨j1, hj1, t1, ht1, hd1⟩ := mem_tidDrains hi1
    obtain ⟨j2, hj2, t2, ht2, hd2⟩ := mem_tidDrains hi2
    obtain ⟨ta, dpa, ga, nva, hta, hDa, -, -, -, -, -, -, hDa'⟩ := H1.facts j1 hj1
    rw [ht1] at hta
    obtain rfl : t1 = ta := Option.some_injective _ hta
    obtain ⟨tb, dpb, gb, nvb, htb, hDb, hndb, -, -, -, -, -, -⟩ := H2.facts j2 hj2
    have htb' : tb.drain = i := by
      by_cases hmem : j2 ∈ tids1
      · obtain ⟨tc, dpc, gc, nvc, htc, -, -, -, -, -, -, hTc, hDc⟩ := H1.facts j2 hmem
        rw [hTc] at htb
        obtain rfl : { tc with error_hysteresis := hystB gc } = tb :=
          Option.some_injective _ htb
        rw [ht2] at htc
        obtain rfl : t2 = tc := Option.some_injective _ htc
        exact hd2
      · rw [H1.keep j2 hmem, ht2] at htb
        obtain rfl : t2 = tb := Option.some_injective _ htb
        exact hd2
    rw [htb', ← hd1] at hDb
    rw [hDa'] at hDb
    obtain rfl : { dpa with next_drive := some nva.toDriveValue } = dpb :=
      Option.some_injective _ hDb
    exact Option.noConfusion hndb

mutual

theorem tickT_false_dev : ∀ (d : DeviceTree) (u u2 : Netlist),
    tickTransistorsDev u d = some (u2, false) → PhaseAOut u u2 (treeTidsDev d)
  | .mk tid children, u, u2, h => by
    simp only [tickTransistorsDev] at h
    cases tid with
    | none =>
      simp only at h
      cases hF : tickTransistorsForest u children with
      | none => simp only [hF] at h; exact Option.noConfusion h
      | some sc2 =>
        obtain ⟨uf, cf⟩ := sc2
        simp only [hF] at h
        injection h with h'
        injection h' with hA hB
        subst hA
        have hcf : cf = false := by simpa using hB
        subst hcf
        have hres := tickT_false_forest children u uf hF
        simpa only [treeTidsDev, List.nil_append] using hres
    | some j =>
      simp only at h
      cases hT : u.transistorTick j with
      | none => simp only [hT] at h; exact Option.noConfusion h
      | some sc1 =>
        obtain ⟨u1, c1⟩ := sc1
        simp only [hT] at h
        cases hF : tickTransistorsForest u1 children with
        | none => simp only [hF] at h; exact Option.noConfusion h
        | some sc2 =>
          obtain ⟨uf, cf⟩ := sc2
          simp only [hF] at h
          injection h with h'
          injection h' with hA hB
          subst hA
          simp only [Bool.or_eq_false_iff] at hB
          obtain ⟨hc1, hcf⟩ := hB
          subst hc1
          subst hcf
          have hA1 := phaseA_single hT
          have hF1 := tickT_false_forest children u1 uf hF
          simpa only [treeTidsDev] using phaseA_compose hA1 hF1

theorem tickT_false_forest : ∀ (ds : DeviceForest) (u u2 : Netlist),
    tickTransistorsForest u ds = some (u2, false) → PhaseAOut u u2 (treeTidsForest ds)
  | .nil, u, u2, h => by
    simp only [tickTransistorsForest] at h
    injection h with h'
    injection h' with hA hB
    subst hA
    exact phaseA_nil u
  | .cons d ds, u, u2, h => by
    simp only [tickTransistorsForest] at h
    cases hD : tickTransistorsDev u d with
    | none => simp only [hD] at h; exact Option.noConfusion h
    | some sc1 =>
      obtain ⟨u1, c1⟩ := sc1
      simp only [hD] at h
      cases hF : tickTransistorsForest u1 ds with
      | none => simp only [hF] at h; exact Option.noConfusion h
      | some sc2 =>
        obtain ⟨uf, cf⟩ := sc2
        simp only [hF] at h
        injection h with h'
        injection h' with hA hB
        subst hA
        simp only [Bool.or_eq_false_iff] at hB
        obtain ⟨hc1, hcf⟩ := hB
        subst hc1
        subst hcf
        have hD1 := tickT_false_dev d u u1 hD
        have hF1 := tickT_false_forest ds u1 uf hF
        simpa only [treeTidsForest] using phaseA_compose hD1 hF1

end

/-- The drain, gate and source pins of the listed transistors, in the
order Phase B ticks them. -/
def tidPins (s : Netlist) : List Nat → List Nat
  | [] => []
  | j :: rest =>
    (match s.transistors[j]? with
     | some t => [t.drain, t.gate, t.source]
     | none => []) ++ tidPins s rest

theorem tidPins_congr {s s2 : Netlist} (h : s2.transistors = s.transistors) :
    ∀ (tids : List Nat), tidPins s2 tids = tidPins s tids
  | [] => rfl
  | j :: rest => by
    simp only [tidPins, h, tidPins_congr h rest]

theorem tidPins_append (s : Netlist) : ∀ (l1 l2 : List Nat),
    tidPins s (l1 ++ l2) = tidPins s l1 ++ tidPins s l2
  | [], l2 => rfl
  | j :: rest, l2 => by
    simp only [List.cons_append, tidPins, List.append_eq, tidPins_append s rest l2,
      List.append_assoc]

/-- Characterization of a pin tick that reports no change: either there
was no pending drive and the state is untouched, or the pending drive
equals the current one and is merely cleared. -/
theorem pinTick_false {v v1 : Netlist} {i : Nat} (h : v.pinTick i = some (v1, false)) :
    ∃ p, v.pins[i]? = some p ∧
      ((p.next_drive = none ∧ v1 = v) ∨
       (p.next_drive = some p.current_drive ∧
        v1 = v.setPin i { p with next_drive := none })) := by
  unfold Netlist.pinTick at h
  cases hp : v.pins[i]? with
  | none => simp only [hp] at h; exact Option.noConfusion h
  | some p =>
    simp only [hp] at h
    cases hn : p.next_drive with
    | none =>
      simp only [hn] at h
      injection h with h'
      injection h' with hA hB
      exact ⟨p, rfl, Or.inl ⟨hn, hA.symm⟩⟩
    | some next =>
      simp only [hn] at h
      by_cases he : p.current_drive = next
      · rw [if_pos he] at h
        injection h with h'
        injection h' with hA hB
        exact ⟨p, rfl, Or.inr ⟨by rw [hn, he], hA.symm⟩⟩
      · rw [if_neg he] at h
        cases hw : v.wires[p.wire]? with
        | none => simp only [hw] at h; exact Option.noConfusion h
        | some ow =>
          cases ow with
          | none => simp only [hw] at h; exact Option.noConfusion h
          | some w =>
            simp only [hw] at h
            cases hu : w.drive_value_accumulator.update p.current_drive next with
            | none => simp only [hu] at h; exact Option.noConfusion h
            | some av =>
              simp only [hu] at h
              injection h with h'
              injection h' with hA hB
              exact Bool.noConfusion hB

/-- Everything a no-change Phase B run over a set of pins guarantees:
wires and transistors untouched, pending slots only cleared (and only
when they matched the current drive), and all ticked pins left with an
empty pending slot. -/
structure PhaseBOut (v v2 : Netlist) (pins : List Nat) : Prop where
  wires_eq : v2.wires = v.wires
  trans_eq : v2.transistors = v.transistors
  pins_len : v2.pins.length = v.pins.length
  slots : ∀ i : Nat, v2.pins[i]? = v.pins[i]? ∨
    ∃ p, v.pins[i]? = some p ∧ p.next_drive = some p.current_drive ∧
      v2.pins[i]? = some { p with next_drive := none }
  cleared : ∀ i ∈ pins, ∃ q, v2.pins[i]? = some q ∧ q.next_drive = none

theorem phaseB_nil (v : Netlist) : PhaseBOut v v [] :=
  ⟨rfl, rfl, rfl, fun _ => Or.inl rfl, fun i hi => absurd hi (List.not_mem_nil i)⟩

theorem phaseB_compose {v vm v2 : Netlist} {l1 l2 : List Nat}
    (H1 : PhaseBOut v vm l1) (H2 : PhaseBOut vm v2 l2) : PhaseBOut v v2 (l1 ++ l2) := by
  refine ⟨H2.wires_eq.trans H1.wires_eq, H2.trans_eq.trans H1.trans_eq,
    H2.pins_len.trans H1.pins_len, ?_, ?_⟩
  · intro i
    rcases H2.slots i with h2 | ⟨p, hp, hn, hset⟩
    · rw [h2]
      exact H1.slots i
    · rcases H1.slots i with h1 | ⟨p0, hp0, hn0, hset0⟩
      · rw [h1] at hp
        exact Or.inr ⟨p, hp, hn, hset⟩
      · rw [hset0] at hp
        obtain rfl : { p0 with next_drive := none } = p := Option.some_injective _ hp
        exact Option.noConfusion hn
  · intro i hi
    rcases List.mem_append.1 hi with hi1 | hi2
    · obtain ⟨q, hq, hqn⟩ := H1.cleared i hi1
      rcases H2.slots i with h2 | ⟨p, hp, hn, hset⟩
      · exact ⟨q, by rw [h2, hq], hqn⟩
      · rw [hq] at hp
        obtain rfl : q = p := Option.some_injective _ hp
        rw [hqn] at hn
        exact Option.noConfusion hn
    · exact H2.cleared i hi2

theorem pinTick_false_phaseB {v v1 : Netlist} {i : Nat}
    (h : v.pinTick i = some (v1, false)) : PhaseBOut v v1 [i] := by
  obtain ⟨p, hp, hcase⟩ := pinTick_false h
  rcases hcase with ⟨hn, rfl⟩ | ⟨hn, rfl⟩
  · exact ⟨rfl, rfl, rfl, fun _ => Or.inl rfl,
      fun k hk => ⟨p, by rw [List.mem_singleton.1 hk, hp], hn⟩⟩
  · have hlt : i < v.pins.length := Netlist.mem_pins_lt hp
    refine ⟨rfl, rfl, Netlist.setPin_length .., ?_, ?_⟩
    · intro k
      by_cases hk : i = k
      · subst hk
        exact Or.inr ⟨p, hp, hn, by
          show (v.pins.set i _)[i]? = _
          rw [List.getElem?_set_self hlt]⟩
      · exact Or.inl (by
          show (v.pins.set i _)[k]? = _
          rw [List.getElem?_set_ne hk])
    · intro k hk
      rw [List.mem_singleton.1 hk]
      refine ⟨{ p with next_drive := none }, ?_, rfl⟩
      show (v.pins.set i _)[i]? = _
      rw [List.getElem?_set_self hlt]

theorem transistorPinsTick_false {v v1 : Netlist} {j : Nat}
    (h : v.transistorPinsTick j = some (v1, false)) : PhaseBOut v v1 (tidPins v [j]) := by
  unfold Netlist.transistorPinsTick at h
  cases hT : v.transistors[j]? with
  | none => simp only [hT] at h; exact Option.noConfusion h
  | some t =>
    simp only [hT] at h
    cases h1 : v.pinTick t.drain with
    | none => simp only [h1] at h; exact Option.noConfusion h
    | some sc1 =>
      obtain ⟨va, ca⟩ := sc1
      simp only [h1] at h
      cases h2 : va.pinTick t.gate with
      | none => simp only [h2] at h; exact Option.noConfusion h
      | some sc2 =>
        obtain ⟨vb, cb⟩ := sc2
        simp only [h2] at h
        cases h3 : vb.pinTick t.source with
        | none => simp only [h3] at h; exact Option.noConfusion h
        | some sc3 =>
          obtain ⟨vc, cc⟩ := sc3
          simp only [h3] at h
          injection h with h'
          injection h' with hA hB
          subst hA
          simp only [Bool.or_eq_false_iff] at hB
          obtain ⟨⟨hca, hcb⟩, hcc⟩ := hB
          subst hca
          subst hcb
          subst hcc
          have B1 := pinTick_false_phaseB h1
          have B2 := pinTick_false_phaseB h2
          have B3 := pinTick_false_phaseB h3
          have hcomp := phaseB_compose B1 (phaseB_compose B2 B3)
          simpa only [tidPins, hT, List.append_nil] using hcomp

mutual

theorem tickP_false_dev : ∀ (d : DeviceTree) (v v2 : Netlist),
    tickPinsDev v d = some (v2, false) → PhaseBOut v v2 (tidPins v (treeTidsDev d))
  | .mk tid children, v, v2, h => by
    simp only [tickPinsDev] at h
    cases tid with
    | none =>
      simp only at h
      cases hF : tickPinsForest v children with
      | none => simp only [hF] at h; exact Option.noConfusion h
      | some sc2 =>
        obtain ⟨vf, cf⟩ := sc2
        simp only [hF] at h
        injection h with h'
        injection h' with hA hB
        subst hA
        have hcf : cf = false := by simpa using hB
        subst hcf
        have hres := tickP_false_forest children v vf hF
        simpa only [treeTidsDev, List.nil_append] using hres
    | some j =>
      simp only at h
      cases hT : v.transistorPinsTick j with
      | none => simp only [hT] at h; exact Option.noConfusion h
      | some sc1 =>
        obtain ⟨v1, c1⟩ := sc1
        simp only [hT] at h
        cases hF : tickPinsForest v1 children with
        | none => simp only [hF] at h; exact Option.noConfusion h
        | some sc2 =>
          obtain ⟨vf, cf⟩ := sc2
          simp only [hF] at h
          injection h with h'
          injection h' with hA hB
          subst hA
          simp only [Bool.or_eq_false_iff] at hB
          obtain ⟨hc1, hcf⟩ := hB
          subst hc1
          subst hcf
          have hB1 := transistorPinsTick_false hT
          have hF1 := tickP_false_forest children v1 vf hF
          rw [tidPins_congr hB1.trans_eq (treeTidsForest children)] at hF1
          have hcomp := phaseB_compose hB1 hF1
          have heq : treeTidsDev (DeviceTree.mk (some j) children) =
              [j] ++ treeTidsForest children := rfl
          rw [heq, tidPins_append]
          exact hcomp

theorem tickP_false_forest : ∀ (ds : DeviceForest) (v v2 : Netlist),
    tickPinsForest v ds = some (v2, false) → PhaseBOut v v2 (tidPins v (treeTidsForest ds))
  | .nil, v, v2, h => by
    simp only [tickPinsForest] at h
    injection h with h'
    injection h' with hA hB
    subst hA
    exact phaseB_nil v
  | .cons d ds, v, v2, h => by
    simp only [tickPinsForest] at h
    cases hD : tickPinsDev v d with
    | none => simp only [hD] at h; exact Option.noConfusion h
    | some sc1 =>
      obtain ⟨v1, c1⟩ := sc1
      simp only [hD] at h
      cases hF : tickPinsForest v1 ds with
      | none => simp only [hF] at h; exact Option.noConfusion h
      | some sc2 =>
        obtain ⟨vf, cf⟩ := sc2
        simp only [hF] at h
        injection h with h'
        injection h' with hA hB
        subst hA
        simp only [Bool.or_eq_false_iff] at hB
        obtain ⟨hc1, hcf⟩ := hB
        subst hc1
        subst hcf
        have hD1 := tickP_false_dev d v v1 hD
        have hF1 := tickP_false_forest ds v1 vf hF
        rw [tidPins_congr hD1.trans_eq (treeTidsForest ds)] at hF1
        have hcomp := phaseB_compose hD1 hF1
        have heq : treeTidsForest (DeviceForest.cons d ds) =
            treeTidsDev d ++ treeTidsForest ds := rfl
        rw [heq, tidPins_append]
        exact hcomp

end

/-- A transistor is quiet in a state: its reads succeed, its hysteresis
flag matches the gate reading, its three pins have empty pending slots,
and the computed next value converts exactly to the current drain
drive.  A tick from a state whose tree transistors are all quiet is the
identity. -/
def transistorQuiet (s : Netlist) (j : Nat) : Prop :=
  ∃ t dp gp sp g nv,
    s.transistors[j]? = some t ∧
    s.pins[t.drain]? = some dp ∧ dp.next_drive = none ∧
    s.pins[t.gate]? = some gp ∧ gp.next_drive = none ∧
    s.pins[t.source]? = some sp ∧ sp.next_drive = none ∧
    s.readPin t.gate = some g ∧
    t.error_hysteresis = hystB g ∧
    transistorNextLV s t = some nv ∧
    nv.toDriveValue = dp.current_drive

mutual

/-- All transistors of a tree are quiet. -/
def treeQuietDev (s : Netlist) : DeviceTree → Prop
  | .mk tid children =>
    (match tid with | some j => transistorQuiet s j | none => True) ∧
      treeQuietForest s children

/-- All transistors of a forest are quiet. -/
def treeQuietForest (s : Netlist) : DeviceForest → Prop
  | .nil => True
  | .cons d ds => treeQuietDev s d ∧ treeQuietForest s ds

end

theorem mem_tidPins {s : Netlist} {t : Transistor} : ∀ {tids : List Nat} {j : Nat},
    j ∈ tids → s.transistors[j]? = some t →
    t.drain ∈ tidPins s tids ∧ t.gate ∈ tidPins s tids ∧ t.source ∈ tidPins s tids := by
  intro tids
  induction tids with
  | nil => intro j hj _; exact absurd hj (List.not_mem_nil j)
  | cons a rest ih =>
    intro j hj ht
    rcases List.mem_cons.1 hj with rfl | hj2
    · refine ⟨?_, ?_, ?_⟩ <;>
        · simp only [tidPins, ht, List.mem_append]
          exact Or.inl (by simp)
    · obtain ⟨h1, h2, h3⟩ := ih hj2 ht
      refine ⟨?_, ?_, ?_⟩ <;>
        · simp only [tidPins, List.mem_append]
          first
            | exact Or.inr h1
            | exact Or.inr h2
            | exact Or.inr h3

theorem tidDrains_subset_tidPins {s : Netlist} {i : Nat} : ∀ {tids : List Nat},
    i ∈ tidDrains s tids → i ∈ tidPins s tids := by
  intro tids
  induction tids with
  | nil => intro h; exact absurd h (List.not_mem_nil i)
  | cons a rest ih =>
    intro h
    unfold tidDrains at h
    rw [List.filterMap_cons] at h
    simp only [tidPins, List.mem_append]
    cases ht : s.transistors[a]? with
    | none =>
      rw [ht] at h
      exact Or.inr (ih h)
    | some t =>
      rw [ht] at h
      simp only [Option.map_some'] at h
      rcases List.mem_cons.1 h with rfl | h2
      · exact Or.inl (by simp)
      · exact Or.inr (ih h2)

/-- The benign extension relation: v agrees with s except that some pins
whose pending slot is empty in s carry a pending copy of their own
current drive in v. -/
def ExtS (s v : Netlist) : Prop :=
  v.wires = s.wires ∧ v.transistors = s.transistors ∧ v.pins.length = s.pins.length ∧
  ∀ i : Nat, v.pins[i]? = s.pins[i]? ∨
    ∃ p, s.pins[i]? = some p ∧ p.next_drive = none ∧
      v.pins[i]? = some { p with next_drive := some p.current_drive }

theorem extS_refl (s : Netlist) : ExtS s s := ⟨rfl, rfl, rfl, fun _ => Or.inl rfl⟩

theorem readPin_ExtS {s v : Netlist} (he : ExtS s v) (i : Nat) : v.readPin i = s.readPin i := by
  refine readPin_congr he.1 ?_ i
  intro k
  rcases he.2.2.2 k with h | ⟨p, hp, hn, hset⟩
  · rw [h]
  · rw [hset, hp]
    rfl

theorem ExtS_setPin_fill {s v : Netlist} {i : Nat} {p : Pin} (he : ExtS s v)
    (hp : s.pins[i]? = some p) (hn : p.next_drive = none) (hvi : v.pins[i]? = s.pins[i]?) :
    ExtS s (v.setPin i { p with next_drive := some p.current_drive }) := by
  refine ⟨he.1, he.2.1, by rw [Netlist.setPin_length]; exact he.2.2.1, ?_⟩
  intro k
  by_cases hk : i = k
  · subst hk
    refine Or.inr ⟨p, hp, hn, ?_⟩
    exact Netlist.getElem?_setPin_self _ (by rw [hvi, hp])
  · rw [Netlist.getElem?_setPin_ne v _ hk]
    exact he.2.2.2 k

/-- One quiet transistor step from a benign extension: it refills the
drain slot with a copy of the current drive and reports no change. -/
theorem transistorTick_quiet {s v : Netlist} {j : Nat}
    (hq : transistorQuiet s j) (he : ExtS s v)
    (hfresh : ∀ t : Transistor, s.transistors[j]? = some t →
      v.pins[t.drain]? = s.pins[t.drain]?) :
    ∃ t dp, s.transistors[j]? = some t ∧ s.pins[t.drain]? = some dp ∧
      v.transistorTick j = some (v.setPin t.drain
        { dp with next_drive := some dp.current_drive }, false) ∧
      ExtS s (v.setPin t.drain { dp with next_drive := some dp.current_drive }) := by
  obtain ⟨t, dp, gp, sp, g, nv, ht, hdp, hdn, hgp, hgn, hsp, hsn, hgr, hhy, hnv, hcv⟩ := hq
  have hvt : v.transistors[j]? = some t := by rw [he.2.1, ht]
  have hvd : v.pins[t.drain]? = some dp := by rw [hfresh t ht, hdp]
  have hvg : v.readPin t.gate = some g := by rw [readPin_ExtS he, hgr]
  have hext : ExtS s (v.setPin t.drain { dp with next_drive := some dp.current_drive }) :=
    ExtS_setPin_fill he hdp hdn (by rw [hfresh t ht])
  refine ⟨t, dp, ht, hdp, ?_, hext⟩
  unfold Netlist.transistorTick
  simp only [hvt, hvd, hvg]
  cases g with
  | Driven b =>
    have hhy2 : t.error_hysteresis = false := hhy
    have hveq : v.setTransistor j { t with error_hysteresis := false } = v := by
      refine Netlist.ext_of rfl rfl ?_
      show v.transistors.set j _ = v.transistors
      rw [transistor_hyst_eta hhy2, set_getElem?_eq hvt]
    have hnext : (if b = t.activation then v.readPin t.source
        else some LogicValue.HighImpedance) = some nv := by
      unfold transistorNextLV at hnv
      rw [hgr] at hnv
      rw [readPin_ExtS he]
      exact hnv
    simp only [hveq, hnext]
    have hsd : v.set_drive t.drain nv.toDriveValue = some (v.setPin t.drain
        { dp with next_drive := some nv.toDriveValue }) := by
      unfold Netlist.set_drive
      simp only [hvd, hdn]
    simp only [hsd]
    have hflag : dp.current_drive.toLogicValue = nv := by
      rw [← hcv, toDriveValue_toLogicValue]
    rw [hflag, bne_self_eq_false, hcv]
  | HighImpedance =>
    have hhy2 : t.error_hysteresis = true := hhy
    obtain rfl : LogicValue.Error = nv := by
      unfold transistorNextLV at hnv
      rw [hgr] at hnv
      injection hnv
    simp only [hhy2, Bool.not_true, Bool.false_eq_true, if_false]
    have hsd : v.set_drive t.drain LogicValue.Error.toDriveValue = some (v.setPin t.drain
        { dp with next_drive := some LogicValue.Error.toDriveValue }) := by
      unfold Netlist.set_drive
      simp only [hvd, hdn]
    simp only [hsd]
    have hflag : dp.current_drive.toLogicValue = LogicValue.Error := by
      rw [← hcv, toDriveValue_toLogicValue]
    rw [hflag, bne_self_eq_false,
      show LogicValue.Error.toDriveValue = dp.current_drive from hcv]
  | Error =>
    have hhy2 : t.error_hysteresis = true := hhy
    obtain rfl : LogicValue.Error = nv := by
      unfold transistorNextLV at hnv
      rw [hgr] at hnv
      injection hnv
    simp only [hhy2, Bool.not_true, Bool.false_eq_true, if_false]
    have hsd : v.set_drive t.drain LogicValue.Error.toDriveValue = some (v.setPin t.drain
        { dp with next_drive := some LogicValue.Error.toDriveValue }) := by
      unfold Netlist.set_drive
      simp only [hvd, hdn]
    simp only [hsd]
    have hflag : dp.current_drive.toLogicValue = LogicValue.Error := by
      rw [← hcv, toDriveValue_toLogicValue]
    rw [hflag, bne_self_eq_false,
      show LogicValue.Error.toDriveValue = dp.current_drive from hcv]

mutual

theorem tickT_quiet_dev : ∀ (d : DeviceTree) (s v : Netlist),
    treeQuietDev s d → ExtS s v →
    (∀ i ∈ tidDrains s (treeTidsDev d), v.pins[i]? = s.pins[i]?) →
    (tidDrains s (treeTidsDev d)).Nodup →
    ∃ v2, tickTransistorsDev v d = some (v2, false) ∧ ExtS s v2 ∧
      (∀ i : Nat, i ∉ tidDrains s (treeTidsDev d) → v2.pins[i]? = v.pins[i]?)
  | .mk tid children, s, v, hq, he, hfresh, hnd => by
    obtain ⟨hqt, hqf⟩ := hq
    cases tid with
    | none =>
      obtain ⟨v2, hrun, he2, hout⟩ := tickT_quiet_forest children s v hqf he hfresh hnd
      refine ⟨v2, ?_, he2, hout⟩
      simp only [tickTransistorsDev, hrun, Bool.or_self]
    | some j =>
      obtain ⟨t0, dp0, gp0, sp0, g0, nv0, ht0, hrest⟩ := hqt
      have hdrains : tidDrains s (treeTidsDev (DeviceTree.mk (some j) children)) =
          t0.drain :: tidDrains s (treeTidsForest children) := by
        show tidDrains s (j :: treeTidsForest children) = _
        unfold tidDrains
        rw [List.filterMap_cons, ht0]
        rfl
      rw [hdrains] at hfresh hnd ⊢
      obtain ⟨hndc, hndf⟩ := List.nodup_cons.1 hnd
      have hfr : ∀ t' : Transistor, s.transistors[j]? = some t' →
          v.pins[t'.drain]? = s.pins[t'.drain]? := by
        intro t' ht'
        rw [ht0] at ht'
        obtain rfl : t0 = t' := Option.some_injective _ ht'
        exact hfresh t0.drain (List.mem_cons_self ..)
      obtain ⟨t, dp, ht, hdp, hrun1, hext1⟩ :=
        transistorTick_quiet ⟨t0, dp0, gp0, sp0, g0, nv0, ht0, hrest⟩ he hfr
      rw [ht0] at ht
      obtain rfl : t0 = t := Option.some_injective _ ht
      have hfresh1 : ∀ i ∈ tidDrains s (treeTidsForest children),
          (v.setPin t0.drain { dp with next_drive := some dp.current_drive }).pins[i]? =
          s.pins[i]? := by
        intro i hi
        have hne : t0.drain ≠ i := fun hcontra => hndc (hcontra ▸ hi)
        rw [Netlist.getElem?_setPin_ne v _ hne]
        exact hfresh i (List.mem_cons_of_mem _ hi)
      obtain ⟨v2, hrun2, he2, hout2⟩ :=
        tickT_quiet_forest children s _ hqf hext1 hfresh1 hndf
      refine ⟨v2, ?_, he2, ?_⟩
      · simp only [tickTransistorsDev, hrun1, hrun2, Bool.or_self]
      · intro i hi
        rw [List.mem_cons] at hi
        push_neg at hi
        rw [hout2 i hi.2, Netlist.getElem?_setPin_ne v _ (fun hcontra => hi.1 hcontra.symm)]

theorem tickT_quiet_forest : ∀ (ds : DeviceForest) (s v : Netlist),
    treeQuietForest s ds → ExtS s v →
    (∀ i ∈ tidDrains s (treeTidsForest ds), v.pins[i]? = s.pins[i]?) →
    (tidDrains s (treeTidsForest ds)).Nodup →
    ∃ v2, tickTransistorsForest v ds = some (v2, false) ∧ ExtS s v2 ∧
      (∀ i : Nat, i ∉ tidDrains s (treeTidsForest ds) → v2.pins[i]? = v.pins[i]?)
  | .nil, s, v, _, he, _, _ => ⟨v, rfl, he, fun _ _ => rfl⟩
  | .cons d ds, s, v, hq, he, hfresh, hnd => by
    obtain ⟨hqd, hqf⟩ := hq
    have happ : tidDrains s (treeTidsForest (DeviceForest.cons d ds)) =
        tidDrains s (treeTidsDev d) ++ tidDrains s (treeTidsForest ds) := by
      show tidDrains s (treeTidsDev d ++ treeTidsForest ds) = _
      unfold tidDrains
      rw [List.filterMap_append]
    rw [happ] at hfresh hnd ⊢
    obtain ⟨hnd1, hnd2, hdisj⟩ := List.nodup_append.1 hnd
    obtain ⟨v1, hrun1, he1, hout1⟩ := tickT_quiet_dev d s v hqd he
      (fun i hi => hfresh i (List.mem_append_left _ hi)) hnd1
    have hfresh2 : ∀ i ∈ tidDrains s (treeTidsForest ds), v1.pins[i]? = s.pins[i]? := by
      intro i hi
      rw [hout1 i (fun hcontra => hdisj hcontra hi)]
      exact hfresh i (List.mem_append_right _ hi)
    obtain ⟨v2, hrun2, he2, hout2⟩ := tickT_quiet_forest ds s v1 hqf he1 hfresh2 hnd2
    refine ⟨v2, ?_, he2, ?_⟩
    · simp only [tickTransistorsForest, hrun1, hrun2, Bool.or_self]
    · intro i hi
      rw [List.mem_append] at hi
      push_neg at hi
      rw [hout2 i hi.2, hout1 i hi.1]

end

theorem pinTick_quiet {s v : Netlist} {i : Nat} {p : Pin}
    (hp : s.pins[i]? = some p) (hn : p.next_drive = none) (he : ExtS s v) :
    ∃ v2, v.pinTick i = some (v2, false) ∧ ExtS s v2 ∧ v2.pins[i]? = s.pins[i]? ∧
      ∀ k : Nat, k ≠ i → v2.pins[k]? = v.pins[k]? := by
  rcases hvi : he.2.2.2 i with hv | ⟨p0, hp0, hn0, hset⟩
  · refine ⟨v, ?_, he, by rw [hv], fun _ _ => rfl⟩
    unfold Netlist.pinTick
    simp only [hv, hp, hn]
  · rw [hp] at hp0
    obtain rfl : p = p0 := Option.some_injective _ hp0
    refine ⟨v.setPin i p, ?_, ?_, ?_, ?_⟩
    · unfold Netlist.pinTick
      simp only [hset]
      rw [if_pos trivial, pin_clear_eta hn]
    · refine ⟨he.1, he.2.1, by rw [Netlist.setPin_length]; exact he.2.2.1, ?_⟩
      intro k
      by_cases hk : i = k
      · subst hk
        exact Or.inl (by rw [Netlist.getElem?_setPin_self _ hset, hp])
      · rw [Netlist.getElem?_setPin_ne v _ hk]
        exact he.2.2.2 k
    · rw [Netlist.getElem?_setPin_self _ hset, hp]
    · intro k hk
      exact Netlist.getElem?_setPin_ne v _ (fun hcontra => hk hcontra.symm)

theorem transistorPinsTick_quiet {s v : Netlist} {j : Nat}
    (hq : transistorQuiet s j) (he : ExtS s v) :
    ∃ t v2, s.transistors[j]? = some t ∧
      v.transistorPinsTick j = some (v2, false) ∧ ExtS s v2 ∧
      (∀ i : Nat, i = t.drain ∨ i = t.gate ∨ i = t.source → v2.pins[i]? = s.pins[i]?) ∧
      (∀ i : Nat, i ≠ t.drain → i ≠ t.gate → i ≠ t.source → v2.pins[i]? = v.pins[i]?) := by
  obtain ⟨t, dp, gp, sp, g, nv, ht, hdp, hdn, hgp, hgn, hsp, hsn, hgr, hhy, hnv, hcv⟩ := hq
  have hvt : v.transistors[j]? = some t := by rw [he.2.1, ht]
  obtain ⟨va, hrun1, hea, hia, hka⟩ := pinTick_quiet hdp hdn he
  obtain ⟨vb, hrun2, heb, hib, hkb⟩ := pinTick_quiet hgp hgn hea
  obtain ⟨vc, hrun3, hec, hic, hkc⟩ := pinTick_quiet hsp hsn heb
  refine ⟨t, vc, ht, ?_, hec, ?_, ?_⟩
  · unfold Netlist.transistorPinsTick
    simp only [hvt, hrun1, hrun2, hrun3, Bool.or_self]
  · intro i hi
    rcases hi with rfl | rfl | rfl
    · by_cases h1 : t.drain = t.source
      · rw [h1]
        exact hic
      · by_cases h2 : t.drain = t.gate
        · rw [hkc t.drain h1, h2]
          exact hib
        · rw [hkc t.drain h1, hkb t.drain h2]
          exact hia
    · by_cases h1 : t.gate = t.source
      · rw [h1]
        exact hic
      · rw [hkc t.gate h1]
        exact hib
    · exact hic
  · intro i h1 h2 h3
    rw [hkc i h3, hkb i h2, hka i h1]

mutual

theorem tickP_quiet_dev : ∀ (d : DeviceTree) (s v : Netlist),
    treeQuietDev s d → ExtS s v →
    ∃ v2, tickPinsDev v d = some (v2, false) ∧ ExtS s v2 ∧
      (∀ i ∈ tidPins s (treeTidsDev d), v2.pins[i]? = s.pins[i]?) ∧
      (∀ i : Nat, i ∉ tidPins s (treeTidsDev d) → v2.pins[i]? = v.pins[i]?)
  | .mk tid children, s, v, hq, he => by
    obtain ⟨hqt, hqf⟩ := hq
    cases tid with
    | none =>
      obtain ⟨v2, hrun, he2, hin, hout⟩ := tickP_quiet_forest children s v hqf he
      refine ⟨v2, ?_, he2, hin, hout⟩
      simp only [tickPinsDev, hrun, Bool.or_self]
    | some j =>
      obtain ⟨t, v1, ht, hrun1, he1, hin1, hout1⟩ := transistorPinsTick_quiet hqt he
      have hpins : tidPins s (treeTidsDev (DeviceTree.mk (some j) children)) =
          [t.drain, t.gate, t.source] ++ tidPins s (treeTidsForest children) := by
        show tidPins s (j :: treeTidsForest children) = _
        simp only [tidPins, ht]
      obtain ⟨v2, hrun2, he2, hin2, hout2⟩ := tickP_quiet_forest children s v1 hqf he1
      rw [hpins]
      refine ⟨v2, ?_, he2, ?_, ?_⟩
      · simp only [tickPinsDev, hrun1, hrun2, Bool.or_self]
      · intro i hi
        rcases List.mem_append.1 hi with hi1 | hi2
        · by_cases hmem : i ∈ tidPins s (treeTidsForest children)
          · exact hin2 i hmem
          · rw [hout2 i hmem]
            refine hin1 i ?_
            simp only [List.mem_cons, List.mem_singleton] at hi1
            rcases hi1 with rfl | rfl | rfl | habs
            · exact Or.inl rfl
            · exact Or.inr (Or.inl rfl)
            · exact Or.inr (Or.inr rfl)
            · exact absurd habs (List.not_mem_nil i)
        · exact hin2 i hi2
      · intro i hi
        rw [List.mem_append] at hi
        push_neg at hi
        rw [hout2 i hi.2]
        have hi1 := hi.1
        simp only [List.mem_cons, List.mem_singleton] at hi1
        push_neg at hi1
        exact hout1 i hi1.1 hi1.2.1 hi1.2.2.1

theorem tickP_quiet_forest : ∀ (ds : DeviceForest) (s v : Netlist),
    treeQuietForest s ds → ExtS s v →
    ∃ v2, tickPinsForest v ds = some (v2, false) ∧ ExtS s v2 ∧
      (∀ i ∈ tidPins s (treeTidsForest ds), v2.pins[i]? = s.pins[i]?) ∧
      (∀ i : Nat, i ∉ tidPins s (treeTidsForest ds) → v2.pins[i]? = v.pins[i]?)
  | .nil, s, v, _, he =>
    ⟨v, rfl, he, fun i hi => absurd hi (List.not_mem_nil i), fun _ _ => rfl⟩
  | .cons d ds, s, v, hq, he => by
    obtain ⟨hqd, hqf⟩ := hq
    have happ : tidPins s (treeTidsForest (DeviceForest.cons d ds)) =
        tidPins s (treeTidsDev d) ++ tidPins s (treeTidsForest ds) := by
      show tidPins s (treeTidsDev d ++ treeTidsForest ds) = _
      rw [tidPins_append]
    obtain ⟨v1, hrun1, he1, hin1, hout1⟩ := tickP_quiet_dev d s v hqd he
    obtain ⟨v2, hrun2, he2, hin2, hout2⟩ := tickP_quiet_forest ds s v1 hqf he1
    rw [happ]
    refine ⟨v2, ?_, he2, ?_, ?_⟩
    · simp only [tickPinsForest, hrun1, hrun2, Bool.or_self]
    · intro i hi
      rcases List.mem_append.1 hi with hi1 | hi2
      · by_cases hmem : i ∈ tidPins s (treeTidsForest ds)
        · exact hin2 i hmem
        · rw [hout2 i hmem]
          exact hin1 i hi1
      · exact hin2 i hi2
    · intro i hi
      rw [List.mem_append] at hi
      push_neg at hi
      rw [hout2 i hi.2, hout1 i hi.1]

end

/-- A tick from a fully quiet state with distinct drains is the
identity and reports no change. -/
theorem tick_quiet_fixed {s : Netlist} {d : DeviceTree}
    (hq : treeQuietDev s d) (hnd : (tidDrains s (treeTidsDev d)).Nodup) :
    tick s d = some (s, false) := by
  obtain ⟨sA, hrunA, heA, houtA⟩ :=
    tickT_quiet_dev d s s hq (extS_refl s) (fun _ _ => rfl) hnd
  obtain ⟨s2, hrunB, heB, hinB, houtB⟩ := tickP_quiet_dev d s sA hq heA
  have hs2 : s2 = s := by
    refine Netlist.ext_of ?_ heB.1 heB.2.1
    apply List.ext_getElem?
    intro i
    by_cases hi : i ∈ tidPins s (treeTidsDev d)
    · rw [hinB i hi]
    · rw [houtB i hi, houtA i (fun hmem => hi (tidDrains_subset_tidPins hmem))]
  simp only [tick, hrunA, hrunB, hs2, Bool.or_self]

theorem phaseB_pin_wire {v v2 : Netlist} {l : List Nat} (H : PhaseBOut v v2 l) (i : Nat) :
    (v2.pins[i]?).map Pin.wire = (v.pins[i]?).map Pin.wire := by
  rcases H.slots i with h | ⟨p, hp, hn, hset⟩
  · rw [h]
  · rw [hset, hp]
    rfl

/-- After a no-change Phase A followed by a no-change Phase B over the
same transistors, every one of those transistors is quiet. -/
theorem quiet_of_tick_false {s sA s2 : Netlist} {tids : List Nat}
    (HA : PhaseAOut s sA tids) (HB : PhaseBOut sA s2 (tidPins sA tids)) :
    ∀ j ∈ tids, transistorQuiet s2 j := by
  intro j hj
  obtain ⟨t, dp, g, nv, ht, hD, hnd, hgr, hnext, hcur, hcase, hT2, hD2⟩ := HA.facts j hj
  have hT3 : s2.transistors[j]? = some { t with error_hysteresis := hystB g } := by
    rw [HB.trans_eq]
    exact hT2
  have hr : ∀ i : Nat, s2.readPin i = s.readPin i := fun i =>
    (readPin_congr HB.wires_eq (phaseB_pin_wire HB) i).trans (readPin_frameA HA.frame i)
  obtain ⟨hmd, hmg, hms⟩ := mem_tidPins hj hT2
  obtain ⟨gq, hgq, hgqn⟩ := HB.cleared _ hmg
  obtain ⟨sq, hsq, hsqn⟩ := HB.cleared _ hms
  have hdrain : s2.pins[t.drain]? = some dp ∧ nv.toDriveValue = dp.current_drive := by
    rcases HB.slots t.drain with hsl | ⟨p, hp, hpn, hset⟩
    · obtain ⟨dq, hdq, hdqn⟩ := HB.cleared _ hmd
      rw [hsl, hD2] at hdq
      obtain rfl : ({ dp with next_drive := some nv.toDriveValue } : Pin) = dq :=
        Option.some_injective _ hdq
      exact Option.noConfusion hdqn
    · rw [hD2] at hp
      obtain rfl : ({ dp with next_drive := some nv.toDriveValue } : Pin) = p :=
        Option.some_injective _ hp
      have hcv : nv.toDriveValue = dp.current_drive := by injection hpn
      have hlit : ({ { dp with next_drive := some nv.toDriveValue } with
          next_drive := none } : Pin) = dp := by
        obtain ⟨c, n, w⟩ := dp
        simp only at hnd
        subst hnd
        rfl
      rw [hset, hlit]
      exact ⟨rfl, hcv⟩
  refine ⟨{ t with error_hysteresis := hystB g }, dp, gq, sq, g, nv, hT3, hdrain.1, hnd,
    hgq, hgqn, hsq, hsqn, ?_, rfl, ?_, hdrain.2⟩
  · rw [hr, hgr]
  · rw [transistorNextLV_congr hr rfl rfl rfl]
    exact hnext

theorem nodup_drains_of_tick_false {s sA s2 : Netlist} {tids : List Nat}
    (HA : PhaseAOut s sA tids) (HB : PhaseBOut sA s2 (tidPins sA tids)) :
    (tidDrains s2 tids).Nodup := by
  have h2 : tidDrains s2 tids = tidDrains sA tids := by
    unfold tidDrains
    rw [HB.trans_eq]
  rw [h2, tidDrains_congr HA.frame.trans_keep tids]
  exact HA.nodup

mutual

theorem treeQuietDev_of_forall : ∀ (d : DeviceTree) (s : Netlist),
    (∀ j ∈ treeTidsDev d, transistorQuiet s j) → treeQuietDev s d
  | .mk tid children, s, h => by
    have hf : treeQuietForest s children := by
      refine treeQuietForest_of_forall children s ?_
      intro j hj
      refine h j ?_
      cases tid with
      | none => exact hj
      | some a => exact List.mem_cons_of_mem a hj
    refine ⟨?_, hf⟩
    cases tid with
    | none => trivial
    | some j => exact h j (List.mem_cons_self ..)

theorem treeQuietForest_of_forall : ∀ (ds : DeviceForest) (s : Netlist),
    (∀ j ∈ treeTidsForest ds, transistorQuiet s j) → treeQuietForest s ds
  | .nil, _, _ => trivial
  | .cons d ds, s, h =>
    ⟨treeQuietDev_of_forall d s (fun j hj => h j (List.mem_append_left _ hj)),
     treeQuietForest_of_forall ds s (fun j hj => h j (List.mem_append_right _ hj))⟩

end

/-- A tick that reports no change leaves the network at a fixed point:
ticking its result is the identity and again reports no change. -/
theorem tick_false_fixed {s s2 : Netlist} {d : DeviceTree}
    (h : tick s d = some (s2, false)) : tick s2 d = some (s2, false) := by
  unfold tick at h
  cases hA : tickTransistorsDev s d with
  | none => simp only [hA] at h; exact Option.noConfusion h
  | some scA =>
    obtain ⟨sA, cA⟩ := scA
    simp only [hA] at h
    cases hB : tickPinsDev sA d with
    | none => simp only [hB] at h; exact Option.noConfusion h
    | some scB =>
      obtain ⟨sB, cB⟩ := scB
      simp only [hB] at h
      injection h with h'
      injection h' with hS hC
      subst hS
      simp only [Bool.or_eq_false_iff] at hC
      obtain ⟨hcA, hcB⟩ := hC
      subst hcA
      subst hcB
      have HA := tickT_false_dev d s sA hA
      have HB := tickP_false_dev d sA sB hB
      exact tick_quiet_fixed
        (treeQuietDev_of_forall d sB (quiet_of_tick_false HA HB))
        (nodup_drains_of_tick_false HA HB)

/-- C7: settle is idempotent.  For every device tree, whenever settle
returns (with any fuel, tick count and final state), an immediately
following tick of the final state returns the very same state with the
changed flag false: the network is at a fixed point, the two phases
recompute pending drives that all match the current ones. -/
theorem c7_settle_idempotent : ∀ (fuel : Nat) (s : Netlist) (d : DeviceTree) (n : Nat)
    (sf : Netlist), settle fuel s d = some (n, sf) → tick sf d = some (sf, false)
  | 0, s, d, n, sf, h => by
    simp only [settle] at h
    exact Option.noConfusion h
  | fuel + 1, s, d, n, sf, h => by
    simp only [settle] at h
    cases htick : tick s d with
    | none => simp only [htick] at h; exact Option.noConfusion h
    | some sc =>
      simp only [htick] at h
      by_cases hc : sc.2 = true
      · rw [if_pos hc] at h
        cases hrec : settle fuel sc.1 d with
        | none => simp only [hrec] at h; exact Option.noConfusion h
        | some ns =>
          simp only [hrec] at h
          injection h with h'
          injection h' with h1 h2
          subst h2
          exact c7_settle_idempotent fuel sc.1 d ns.1 ns.2 hrec
      · rw [if_neg hc] at h
        injection h with h'
        injection h' with h1 h2
        subst h2
        have hsc : sc.2 = false := by
          cases hb : sc.2 with
          | false => rfl
          | true => exact absurd hb hc
        have htick2 : tick s d = some (sc.1, false) := by
          rw [htick, ← hsc]
        exact tick_false_fixed htick2

theorem c7_settle_idempotent_witness :
    settle 1 sampleNmos sampleNmosTree = some (0, sampleNmos) ∧
    tick sampleNmos sampleNmosTree = some (sampleNmos, false) :=
  ⟨by decide, c7_settle_idempotent 1 sampleNmos sampleNmosTree 0 sampleNmos (by decide)⟩

mutual

/-- A device as print sees it: a type name and the named children
collection, recorded in the insertion order that the derive macro passes
to the HashMap construction (field declaration order). -/
inductive PrintDev where
  | mk (tname : String) (children : PrintEntries)

/-- A children entry's payload: a single child or a vector of children
(the DeviceContainer enum). -/
inductive PrintContainer where
  | single (d : PrintDev)
  | multiple (ds : PrintDevs)

/-- The association list handed to HashMap::from for the children map. -/
inductive PrintEntries where
  | enil
  | econs (ename : String) (c : PrintContainer) (rest : PrintEntries)

/-- A vector of child devices (iterated in vector order). -/
inductive PrintDevs where
  | dnil
  | dcons (d : PrintDev) (rest : PrintDevs)

end

/-- The keys of the children map in insertion order. -/
def entriesKeys : PrintEntries → List String
  | .enil => []
  | .econs n _ rest => n :: entriesKeys rest

/-- Lookup of a children entry by key (HashMap::get). -/
def entriesGet : PrintEntries → String → Option PrintContainer
  | .enil, _ => none
  | .econs n c rest, k => if n = k then some c else entriesGet rest k

mutual

/-- The sequence of device type names print emits, on a run where each
HashMap iterates its keys in the order ord gives for the stored
(insertion-order) key list.  For the std HashMap the code uses, ord is
some permutation determined by that map instance's RandomState.  Fuel
bounds the recursion depth in the model only. -/
def printDev (ord : List String → List String) :
    Nat → PrintDev → Option (List String)
  | 0, _ => none
  | fuel + 1, .mk n ch =>
    match printKeys ord fuel ch (ord (entriesKeys ch)) with
    | none => none
    | some l => some (n :: l)

/-- Visit the children map's entries in the given key order. -/
def printKeys (ord : List String → List String) :
    Nat → PrintEntries → List String → Option (List String)
  | 0, _, _ => none
  | _ + 1, _, [] => some []
  | fuel + 1, ch, k :: ks =>
    match entriesGet ch k with
    | none => none
    | some c =>
      match printContainer ord fuel c, printKeys ord fuel ch ks with
      | some l1, some l2 => some (l1 ++ l2)
      | _, _ => none

/-- Visit one container: print the single child, or each child of the
vector in vector order. -/
def printContainer (ord : List String → List String) :
    Nat → PrintContainer → Option (List String)
  | 0, _ => none
  | fuel + 1, .single d => printDev ord fuel d
  | fuel + 1, .multiple ds => printDevs ord fuel ds

/-- Visit a child vector front to back. -/
def printDevs (ord : List String → List String) :
    Nat → PrintDevs → Option (List String)
  | 0, _ => none
  | _ + 1, .dnil => some []
  | fuel + 1, .dcons d rest =>
    match printDev ord fuel d, printDevs ord fuel rest with
    | some l1, some l2 => some (l1 ++ l2)
    | _, _ => none

end

/-- A parent with two child fields a and b, in that insertion order. -/
def c9top : PrintDev :=
  .mk "top" (.econs "a" (.single (.mk "A" .enil))
    (.econs "b" (.single (.mk "B" .enil)) .enil))

/-- C9: refuted.  The traversal in print iterates the children map of
each device in the iteration order of a std HashMap, which is an
unspecified permutation of the stored keys that varies with the map
instance's randomly seeded hash state.  Two such orders, both
permutations of the insertion-order key list, make the same device tree
print its children in different sibling orders, so the visit order is
neither the insertion order nor stable across runs. -/
theorem c9_traversal_not_stable :
    ∃ ord1 ord2 : List String → List String,
      (∀ l : List String, (ord1 l).Perm l) ∧ (∀ l : List String, (ord2 l).Perm l) ∧
      printDev ord1 6 c9top ≠ printDev ord2 6 c9top := by
  refine ⟨fun l => l, fun l => l.reverse, fun l => List.Perm.refl l,
    fun l => List.reverse_perm l, ?_⟩
  decide

end Foundation
